import Mathlib

/-!
Verification of the isotropic remeshing entry points of
`Polygon_mesh_processing/include/CGAL/Polygon_mesh_processing/remesh.h`.

The file shallowly embeds:
* the `isotropic_remeshing` orchestrator (remesh.h, lines 133-268): the
  empty-range early return, the `protect_constraints` precondition check,
  the conditional AABB-tree construction, and the five-stage iteration loop;
* the incremental remesher stages driven by the orchestrator.  Their code
  lives in `internal/Isotropic_remeshing/remesh_impl.h`, which is not part
  of this tree, so those definitions are modelled from the specification
  (each such definition carries a doc comment saying so).

Machine doubles are modelled as rationals, 3D points as rational triples,
and the mesh as a simplicial list of triangular faces over natural-number
vertex ids, with caller property maps as Lean functions.
-/

namespace PMPRemesh

/-- 3D point with rational coordinates (the inexact-kernel `Point_3`). -/
structure Point where
  x : ℚ
  y : ℚ
  z : ℚ
deriving DecidableEq, Repr

/-- Squared Euclidean distance between two points. -/
def sqdist (p q : Point) : ℚ :=
  (p.x - q.x) ^ 2 + (p.y - q.y) ^ 2 + (p.z - q.z) ^ 2

/-- Midpoint of two points (the split point used by edge splits). -/
def midpt (p q : Point) : Point :=
  ⟨(p.x + q.x) / 2, (p.y + q.y) / 2, (p.z + q.z) / 2⟩

/-! ## Observable events of one `isotropic_remeshing` call

The orchestrator in remesh.h performs, in source order: the empty-range
test (l.138), the precondition check on constrained edge lengths (l.202),
remesher construction with the AABB tree iff no projection functor was
supplied (l.155, l.222-224), `init_remeshing`, and then
`number_of_iterations` passes over split / collapse / flip / relax /
project (l.243-260).  Each of those steps is recorded as an event. -/

inductive Event where
  | precondCheck (high : ℚ)
  | buildAABBTree
  | initRemeshing
  | splitStage (high : ℚ)
  | collapseStage (low high : ℚ) (collapse_constraints : Bool)
  | flipStage
  | relaxStage (relax1d : Bool) (steps : ℕ)
  | projectStage
deriving DecidableEq, Repr

/-- `true` exactly on split-stage events. -/
def isSplitEvent : Event → Bool
  | .splitStage _ => true
  | _ => false

/-- `true` exactly on collapse-stage events. -/
def isCollapseEvent : Event → Bool
  | .collapseStage _ _ _ => true
  | _ => false

/-- The named parameters recognized by `isotropic_remeshing` (remesh.h
parameter table), with their documented defaults.  `π` is the type of a
user-supplied projection functor; `none` means the parameter was left at
its default (`is_default_parameter` in the source). -/
structure NamedParams (π : Type) where
  number_of_iterations : ℕ := 1
  protect_constraints : Bool := false
  collapse_constraints : Bool := true
  relax_constraints : Bool := false
  number_of_relaxation_steps : ℕ := 1
  do_project : Bool := true
  projection_functor : Option π := none

/-- Interface of `internal::Incremental_remesher` as used by the wrapper:
the precondition helper `constraints_are_short_enough`, `init_remeshing`,
and the five stage member functions, over an abstract remesher state `σ`
(the mesh together with its caller-owned property maps). -/
structure Remesher (σ : Type) (π : Type) where
  constraints_are_short_enough : σ → ℚ → Bool
  init_remeshing : σ → σ
  split_long_edges : ℚ → σ → σ
  collapse_short_edges : ℚ → ℚ → Bool → σ → σ
  equalize_valences : σ → σ
  tangential_relaxation : Bool → ℕ → σ → σ
  project_to_surface : Option π → σ → σ

variable {σ π : Type}

/-- Events of one iteration of the remeshing loop (remesh.h l.243-260):
split and collapse only when `target_edge_length > 0`, then flip and
relaxation, then projection when `do_project` holds. -/
def iterationEvents (target low high : ℚ) (np : NamedParams π) : List Event :=
  (if 0 < target then
    [Event.splitStage high, Event.collapseStage low high np.collapse_constraints]
   else []) ++
  [Event.flipStage, Event.relaxStage np.relax_constraints np.number_of_relaxation_steps] ++
  (if np.do_project then [Event.projectStage] else [])

/-- State transformation of one iteration of the remeshing loop
(remesh.h l.243-260). -/
def iterationState (R : Remesher σ π) (target low high : ℚ) (np : NamedParams π)
    (s : σ) : σ :=
  let s1 := if 0 < target then
      R.collapse_short_edges low high np.collapse_constraints (R.split_long_edges high s)
    else s
  let s2 := R.tangential_relaxation np.relax_constraints np.number_of_relaxation_steps
      (R.equalize_valences s1)
  if np.do_project then R.project_to_surface np.projection_functor s2 else s2

/-- The abort message of the failed precondition check (remesh.h
l.205-207). -/
def abortMsg : String :=
  "Isotropic remeshing : protect_constraints cannot be set to true with constraints larger than 4/3 * target_edge_length. Remeshing aborted."

/-- The `isotropic_remeshing` entry point (remesh.h l.133-268).
`faces_nonempty` is the `boost::begin(faces)==boost::end(faces)` test of
l.138; `pmesh` is the caller-owned mesh state together with all its maps.
The result is the list of performed events together with either the final
state or the precondition-failure message of l.205-210.  A failed
precondition (protection requested with a too-long constrained edge)
aborts before remesher construction, so no initialization event and no
stage event is emitted and no state is produced. -/
def isotropic_remeshing (R : Remesher σ π) (faces_nonempty : Bool)
    (target_edge_length : ℚ) (pmesh : σ) (np : NamedParams π) :
    List Event × Except String σ :=
  if faces_nonempty = false then ([], .ok pmesh)
  else
    let need_aabb_tree := np.projection_functor.isNone
    let low := 4 / 5 * target_edge_length
    let high := 4 / 3 * target_edge_length
    if np.protect_constraints = true ∧
        R.constraints_are_short_enough pmesh high = false then
      ([Event.precondCheck high], .error abortMsg)
    else
      let preEvents :=
        (if np.protect_constraints then [Event.precondCheck high] else []) ++
        (if need_aabb_tree then [Event.buildAABBTree] else []) ++
        [Event.initRemeshing]
      let s0 := R.init_remeshing pmesh
      (preEvents ++
        (List.replicate np.number_of_iterations (iterationEvents target_edge_length low high np)).flatten,
       .ok ((fun s => iterationState R target_edge_length low high np s)^[np.number_of_iterations] s0))

/-- A trivial remesher over a unit state, used to instantiate statements
about the orchestrator's control flow at concrete inputs. -/
def unitRemesher : Remesher Unit Unit :=
  { constraints_are_short_enough := fun _ _ => true
    init_remeshing := id
    split_long_edges := fun _ s => s
    collapse_short_edges := fun _ _ _ s => s
    equalize_valences := id
    tangential_relaxation := fun _ _ s => s
    project_to_surface := fun _ s => s }

/-! ## Concrete mesh model

The stages of `internal::Incremental_remesher` are not part of this tree
(`remesh_impl.h` is internal), so they are modelled from the spec over a
simplicial mesh: a list of triangular faces over natural-number vertex
ids, a vertex-point map, the two caller constraint maps and the list of
vertices touched during the current call (the working state used by the
projection stage). -/

/-- Normalized unordered edge on two vertex ids. -/
def und (x y : ℕ) : ℕ × ℕ := if x ≤ y then (x, y) else (y, x)

/-- A (combinatorial) triangular face. -/
structure Face where
  a : ℕ
  b : ℕ
  c : ℕ
deriving DecidableEq, Repr

/-- `v` is a vertex of face `f`. -/
def vmemB (v : ℕ) (f : Face) : Bool := v == f.a || v == f.b || v == f.c

/-- Both endpoints of the pair `e` are vertices of `f`, i.e. `f` borders
the edge `e`. -/
def hasEdge (e : ℕ × ℕ) (f : Face) : Bool := vmemB e.1 f && vmemB e.2 f

/-- Number of faces of `fs` bordering the edge `e`. -/
def deg (fs : List Face) (e : ℕ × ℕ) : ℕ := fs.countP (hasEdge e)

/-- The three (normalized) edges of a face. -/
def faceEdges (f : Face) : List (ℕ × ℕ) := [und f.a f.b, und f.b f.c, und f.a f.c]

/-- All edges of the mesh, each listed once. -/
def edgesOf (fs : List Face) : List (ℕ × ℕ) := (fs.flatMap faceEdges).dedup

/-- All vertices of the mesh, each listed once. -/
def vertsOf (fs : List Face) : List ℕ := (fs.flatMap fun f => [f.a, f.b, f.c]).dedup

/-- The face is a nondegenerate triangle. -/
def triOKf (f : Face) : Prop := f.a ≠ f.b ∧ f.b ≠ f.c ∧ f.a ≠ f.c

instance (f : Face) : Decidable (triOKf f) := by unfold triOKf; infer_instance

/-- Two faces have the same vertex set. -/
def sameVerts (f g : Face) : Prop :=
  (vmemB f.a g ∧ vmemB f.b g ∧ vmemB f.c g) ∧ (vmemB g.a f ∧ vmemB g.b f ∧ vmemB g.c f)

instance (f g : Face) : Decidable (sameVerts f g) := by unfold sameVerts; infer_instance

/-- The mesh is a valid triangulated manifold-with-boundary in the
simplicial sense: every face is a nondegenerate triangle, no two faces
have the same vertex set, and every edge borders at most two faces
(edges of the mesh border at least one face by construction). -/
def validMesh (fs : List Face) : Prop :=
  (∀ f ∈ fs, triOKf f) ∧
  List.Pairwise (fun f g => ¬ sameVerts f g) fs ∧
  (∀ f ∈ fs, ∀ e ∈ faceEdges f, deg fs e ≤ 2)

instance (fs : List Face) : Decidable (validMesh fs) := by unfold validMesh; infer_instance

/-- The remesher state: the mesh, the vertex-point map, the caller's
edge/vertex constraint maps (the edge map is read on normalized pairs)
and the vertices moved or created during the current call. -/
structure RState where
  faces : List Face
  pt : ℕ → Point
  ec : ℕ × ℕ → Bool
  vc : ℕ → Bool
  touched : List ℕ

/-- Squared length of the edge `e`. -/
def sqlen (st : RState) (e : ℕ × ℕ) : ℚ := sqdist (st.pt e.1) (st.pt e.2)

/-- Modelled from the spec: an edge is constrained when the caller's
edge-constraint map marks it, or implicitly when it is a patch-boundary
edge, i.e. incident to exactly one face of the remeshed range (the range
is the whole mesh in this model). -/
def constrainedE (st : RState) (e : ℕ × ℕ) : Bool :=
  st.ec e || deg st.faces e == 1

/-- Modelled from the spec: `internal::constraints_are_short_enough`
(called by remesh.h l.209, defined in the internal header): every
constrained edge has length at most the bound, compared on squares. -/
def constraints_short (st : RState) (bound : ℚ) : Bool :=
  (edgesOf st.faces).all fun e => !constrainedE st e || decide (sqlen st e ≤ bound ^ 2)

/-- A vertex id strictly larger than every vertex of the mesh. -/
def freshVert (fs : List Face) : ℕ :=
  (fs.map fun f => max f.a (max f.b f.c)).foldr max 0 + 1

/-- The vertex of `f` opposite to the edge `e` (meaningful when `f` is a
nondegenerate triangle bordering `e`). -/
def third (e : ℕ × ℕ) (f : Face) : ℕ :=
  if f.a ≠ e.1 ∧ f.a ≠ e.2 then f.a
  else if f.b ≠ e.1 ∧ f.b ≠ e.2 then f.b
  else f.c

/-- Modelled from the spec (§4.1 split): each face bordering `e` is cut
into two faces by the new vertex `m`; all other faces are kept. -/
def splitFaces (fs : List Face) (e : ℕ × ℕ) (m : ℕ) : List Face :=
  fs.flatMap fun f =>
    if hasEdge e f then [⟨e.1, m, third e f⟩, ⟨m, e.2, third e f⟩] else [f]

/-- Modelled from the spec (§4.1 split): split the edge `e` at its
midpoint: a fresh vertex `m` is created there, the bordering faces are
subdivided, the two sub-edges inherit the constrained status of `e`, the
other new edges are unconstrained, and `m` is recorded as touched. -/
def splitEdge (st : RState) (e : ℕ × ℕ) : RState :=
  let m := freshVert st.faces
  { faces := splitFaces st.faces e m
    pt := fun v => if v = m then midpt (st.pt e.1) (st.pt e.2) else st.pt v
    ec := fun d =>
      if d = und e.1 m ∨ d = und m e.2 then st.ec (und e.1 e.2)
      else if d.1 = m ∨ d.2 = m then false
      else st.ec d
    vc := st.vc
    touched := m :: st.touched }

/-- Modelled from the spec (§3, §4.2): an edge may be split when it is in
the mesh and, under constraint protection, is not constrained. -/
def splittableE (protect : Bool) (st : RState) (e : ℕ × ℕ) : Bool :=
  (1 ≤ deg st.faces e) && e.1 != e.2 && !(protect && constrainedE st e)

/-- Modelled from the spec (§4.2): the working-set loop of
`split_long_edges`.  An edge of the set whose length exceeds the
threshold is split at its midpoint and the two sub-edges are re-inserted
exactly when they still exceed the threshold (each half has a quarter of
the parent's squared length).  The iteration is run under an explicit
bound `fuel`; termination of the unbounded loop is proved on the
edge-length model `splitLengths` below. -/
def splitLoop (protect : Bool) (high : ℚ) : ℕ → List (ℕ × ℕ) → RState → RState
  | 0, _, st => st
  | _ + 1, [], st => st
  | fuel + 1, e :: wl, st =>
    if splittableE protect st e && decide (high ^ 2 < sqlen st e) then
      let m := freshVert st.faces
      let wl' := if high ^ 2 * 4 < sqlen st e then und e.1 m :: und m e.2 :: wl else wl
      splitLoop protect high fuel wl' (splitEdge st e)
    else splitLoop protect high fuel wl st

/-- Modelled from the spec (§4.2): `split_long_edges` seeds the working
set with the edges of the remeshed range. -/
def split_long_edges_impl (protect : Bool) (fuel : ℕ) (high : ℚ) (st : RState) : RState :=
  splitLoop protect high fuel (edgesOf st.faces) st

/-- `v` renamed by the merge of `y` into `x`. -/
def renameV (y x v : ℕ) : ℕ := if v = y then x else v

/-- A face renamed by the merge of `y` into `x`. -/
def renameF (y x : ℕ) (f : Face) : Face := ⟨renameV y x f.a, renameV y x f.b, renameV y x f.c⟩

/-- Modelled from the spec (§4.1 collapse): the faces bordering the
collapsed edge disappear and the removed endpoint is renamed to the
surviving one everywhere else. -/
def collapseFaces (fs : List Face) (x y : ℕ) : List Face :=
  (fs.filter fun f => !hasEdge (x, y) f).map (renameF y x)

/-- `v` is an endpoint of some constrained edge of the mesh. -/
def onConstrained (st : RState) (v : ℕ) : Bool :=
  (edgesOf st.faces).any fun e => constrainedE st e && (v == e.1 || v == e.2)

/-- Modelled from the spec (§4.1, §4.3): the guard of an edge collapse.
The edge must be in the mesh, neither endpoint may be vertex-constrained,
under protection the collapse must not touch any constrained edge (spec
§3: protected constrained edges are never collapsed, and §8 requires
their endpoints to survive), a constrained edge may be collapsed only
when `collapse_constraints` holds, the link condition must hold (spec
words: refuse when the collapse would create a non-manifold edge or a
duplicate face; stated on the result), and no edge at the surviving
vertex may become longer than `high` (§4.3 (a)). -/
def collapseAllowed (protect cc : Bool) (high : ℚ) (st : RState) (e : ℕ × ℕ) : Bool :=
  (1 ≤ deg st.faces e) && e.1 != e.2 &&
  !st.vc e.1 && !st.vc e.2 &&
  !(protect && (onConstrained st e.1 || onConstrained st e.2)) &&
  (cc || !constrainedE st e) &&
  decide (validMesh (collapseFaces st.faces e.1 e.2)) &&
  ((edgesOf (collapseFaces st.faces e.1 e.2)).all fun d =>
    !(d.1 == e.1 || d.2 == e.1) || decide (sqlen st d ≤ high ^ 2))

/-- Modelled from the spec (§4.1 collapse): merge the second endpoint
into the first (the smaller id survives: a deterministic tie-break, as
the spec allows).  The surviving vertex keeps its position.  An edge
produced by merging two edges is constrained when either of them was. -/
def collapseRaw (st : RState) (x y : ℕ) : RState :=
  { faces := collapseFaces st.faces x y
    pt := st.pt
    ec := fun d =>
      if d.1 = x ∨ d.2 = x then st.ec d || st.ec (und (renameV x y d.1) (renameV x y d.2))
      else st.ec d
    vc := st.vc
    touched := st.touched }

/-- Modelled from the spec (§4.3): one candidate of the collapse scan:
collapse `e` when it is shorter than `low` and the guard accepts it,
otherwise skip (local, non-fatal). -/
def collapseStep (protect cc : Bool) (low high : ℚ) (st : RState) (e : ℕ × ℕ) : RState :=
  if decide (sqlen st e < low ^ 2) && collapseAllowed protect cc high st e then
    collapseRaw st e.1 e.2
  else st

/-- Modelled from the spec (§4.3): `collapse_short_edges` scans the edges
of the mesh in one deterministic pass. -/
def collapse_short_edges_impl (protect cc : Bool) (low high : ℚ) (st : RState) : RState :=
  (edgesOf st.faces).foldl (collapseStep protect cc low high) st

/-- The two vertices opposite to `e` when exactly two faces border `e`. -/
def flipInfo (fs : List Face) (e : ℕ × ℕ) : Option (ℕ × ℕ) :=
  match fs.filter (hasEdge e) with
  | [f, g] => some (third e f, third e g)
  | _ => none

/-- Modelled from the spec (§4.1 flip): replace the two faces bordering
`e` by the two triangles on the opposite diagonal. -/
def flipFaces (fs : List Face) (e : ℕ × ℕ) (c d : ℕ) : List Face :=
  ⟨e.1, c, d⟩ :: ⟨e.2, c, d⟩ :: fs.filter fun f => !hasEdge e f

/-- Modelled from the spec (§4.1 flip): the guard of an edge flip: the
edge is interior (two bordering faces, enforced by `flipInfo`), not
constrained (patch-boundary edges are constrained, so boundary edges are
refused), and the flip creates no duplicate edge. -/
def flipAllowed (st : RState) (e : ℕ × ℕ) (c d : ℕ) : Bool :=
  e.1 != e.2 && !constrainedE st e && c != d && deg st.faces (und c d) == 0

/-- Modelled from the spec (§4.1 flip): flip `e` when admissible,
otherwise skip (local, non-fatal). -/
def flipEdge (st : RState) (e : ℕ × ℕ) : RState :=
  match flipInfo st.faces e with
  | some (c, d) =>
    if flipAllowed st e c d then { st with faces := flipFaces st.faces e c d } else st
  | none => st

/-- Number of edges of the mesh incident to `v` (the valence of `v`). -/
def valence (fs : List Face) (v : ℕ) : ℕ :=
  ((edgesOf fs).filter fun e => v == e.1 || v == e.2).length

/-- Modelled from the spec (§4.4): the ideal valence is 6, or 4 for a
vertex on the boundary or on a constraint. -/
def targetVal (st : RState) (v : ℕ) : ℤ :=
  if st.vc v || onConstrained st v then 4 else 6

/-- Squared deviation from the ideal valence, summed over the four
vertices of the quadrilateral of `e`, measured on the face list `fs`. -/
def valenceScore (st : RState) (fs : List Face) (e : ℕ × ℕ) (c d : ℕ) : ℤ :=
  ((valence fs e.1 : ℤ) - targetVal st e.1) ^ 2 +
  ((valence fs e.2 : ℤ) - targetVal st e.2) ^ 2 +
  ((valence fs c : ℤ) - targetVal st c) ^ 2 +
  ((valence fs d : ℤ) - targetVal st d) ^ 2

/-- Modelled from the spec (§4.4): flip `e` exactly when the flip is
admissible and strictly reduces the valence score. -/
def equalizeStep (st : RState) (e : ℕ × ℕ) : RState :=
  match flipInfo st.faces e with
  | some (c, d) =>
    if flipAllowed st e c d &&
        decide (valenceScore st (flipFaces st.faces e c d) e c d <
                valenceScore st st.faces e c d) then
      { st with faces := flipFaces st.faces e c d }
    else st
  | none => st

/-- Modelled from the spec (§4.4): one deterministic pass over the edges. -/
def equalizePass (st : RState) : RState :=
  (edgesOf st.faces).foldl equalizeStep st

/-- Modelled from the spec (§4.4): `equalize_valences` processes the
edges in one deterministic pass and re-evaluates once more to catch flips
enabled by earlier flips. -/
def equalize_valences_impl (st : RState) : RState := equalizePass (equalizePass st)

/-! ### Tangential relaxation and projection -/

/-- Pointwise difference (points as vectors). -/
def vsub (p q : Point) : Point := ⟨p.x - q.x, p.y - q.y, p.z - q.z⟩

/-- Pointwise sum. -/
def vadd (p q : Point) : Point := ⟨p.x + q.x, p.y + q.y, p.z + q.z⟩

/-- Scalar multiple. -/
def smul (r : ℚ) (p : Point) : Point := ⟨r * p.x, r * p.y, r * p.z⟩

/-- Dot product. -/
def dot (p q : Point) : ℚ := p.x * q.x + p.y * q.y + p.z * q.z

/-- Cross product. -/
def cross (p q : Point) : Point :=
  ⟨p.y * q.z - p.z * q.y, p.z * q.x - p.x * q.z, p.x * q.y - p.y * q.x⟩

/-- Area-weighted face normal (cross product of two side vectors). -/
def faceNormal (st : RState) (f : Face) : Point :=
  cross (vsub (st.pt f.b) (st.pt f.a)) (vsub (st.pt f.c) (st.pt f.a))

/-- Sum of a list of points/vectors. -/
def vsum (l : List Point) : Point := l.foldr vadd ⟨0, 0, 0⟩

/-- The one-ring neighbor vertices of `v`. -/
def nbrs (fs : List Face) (v : ℕ) : List ℕ :=
  (edgesOf fs).filterMap fun e =>
    if v = e.1 then some e.2 else if v = e.2 then some e.1 else none

/-- Modelled from the spec (§4.5): the relaxed position of a free vertex:
the displacement towards the one-ring centroid, projected onto the
tangent plane whose normal is the (area-weighted) sum of the incident
face normals.  Degenerate cases (no neighbor, zero normal) keep the
vertex in place. -/
def tangentialTarget (st : RState) (v : ℕ) : Point :=
  let ns := nbrs st.faces v
  if ns.length = 0 then st.pt v
  else
    let g := smul (1 / ns.length) (vsum (ns.map st.pt))
    let n := vsum ((st.faces.filter fun f => vmemB v f).map (faceNormal st))
    let dv := vsub g (st.pt v)
    if dot n n = 0 then st.pt v
    else vadd (st.pt v) (vsub dv (smul (dot dv n / dot n n) n))

/-- The neighbors of `v` along constrained edges (its neighbors on the
constraint polylines through `v`). -/
def constrainedNbrs (st : RState) (v : ℕ) : List ℕ :=
  ((edgesOf st.faces).filter fun e => constrainedE st e && (v == e.1 || v == e.2)).map
    fun e => if v = e.1 then e.2 else e.1

/-- Modelled from the spec (§4.5) and the remesh.h parameter docs
(l.74-79, l.104-107): a vertex-constrained vertex never moves; a vertex
on constrained edges does not move by smoothing, except that with
`relax_constraints` a vertex interior to a constraint polyline (exactly
two constrained incident edges) moves to the 1D centroid of its two
polyline neighbors; every other vertex moves tangentially. -/
def relaxPos (relax1d : Bool) (st : RState) (v : ℕ) : Point :=
  if st.vc v then st.pt v
  else
    match constrainedNbrs st v with
    | [] => tangentialTarget st v
    | [p, q] => if relax1d then midpt (st.pt p) (st.pt q) else st.pt v
    | _ => st.pt v

/-- Modelled from the spec (§4.5, §5): one relaxation sweep with Jacobi
(read-snapshot-then-write) semantics; vertices that actually moved are
recorded as touched. -/
def relaxOnce (relax1d : Bool) (st : RState) : RState :=
  let vs := vertsOf st.faces
  let newpt : ℕ → Point := fun v => if v ∈ vs then relaxPos relax1d st v else st.pt v
  { st with
    pt := newpt
    touched := (vs.filter fun v => newpt v ≠ st.pt v) ++ st.touched }

/-- Modelled from the spec (§4.5): `tangential_relaxation` repeats the
sweep `steps` times. -/
def tangential_relaxation_impl (relax1d : Bool) (steps : ℕ) (st : RState) : RState :=
  (relaxOnce relax1d)^[steps] st

/-- Modelled from the spec (§4.6): the closest point of the (sampled)
reference surface `s`; first minimizer, and the query point itself when
the surface is empty. -/
def closestPoint (q : Point) : List Point → Point
  | [] => q
  | p :: ps => ps.foldl (fun best r => if sqdist r q < sqdist best q then r else best) p

/-- Modelled from the spec (§4.6): the projection stage replaces the
point of every vertex touched during the current iteration by its image
under the projection map; projected vertices stay touched (their point
was modified). -/
def projectWith (proj : Point → Point) (st : RState) : RState :=
  { st with pt := fun v => if v ∈ st.touched then proj (st.pt v) else st.pt v }

/-- Modelled from the spec (§4.6): `project_to_surface` uses the supplied
projection functor when there is one, and otherwise the closest-point
query on the AABB tree built over the original input surface `S`. -/
def project_to_surface_impl (S : List Point) (fo : Option (Point → Point)) (st : RState) : RState :=
  projectWith (fun p => (fo.getD fun q => closestPoint q S) p) st

/-- The concrete incremental remesher over the simplicial model.
`protect` is given at construction (remesh.h l.223), `fuel` bounds the
split working-set loop, and `S` is the point sample of the original
surface over which the AABB tree is built. -/
def remesherT (protect : Bool) (fuel : ℕ) (S : List Point) : Remesher RState (Point → Point) :=
  { constraints_are_short_enough := constraints_short
    init_remeshing := fun st => { st with touched := [] }
    split_long_edges := split_long_edges_impl protect fuel
    collapse_short_edges := fun low high cc => collapse_short_edges_impl protect cc low high
    equalize_valences := equalize_valences_impl
    tangential_relaxation := tangential_relaxation_impl
    project_to_surface := project_to_surface_impl S }

/-! ## Edge-length model of the split working set

`split_long_edges` (spec §4.2) acts on edge lengths only: splitting an
edge of length `L` at its midpoint produces two sub-edges of length
`L / 2`, which re-enter the working set exactly when they still exceed
the threshold.  `splitGo` runs this recursion under a fuel that
`splitLengths` computes in advance; the lemmas below show the fuel is
irrelevant once sufficient, so `splitLengths` satisfies the unbounded
recursion equation — i.e. the working-set loop terminates for every
positive threshold. -/

/-- Fuel sufficient to halve `L` below `max`. -/
def halveFuel (max L : ℚ) : ℕ := ⌈L / max⌉₊

/-- Modelled from the spec (§4.2): fully split one edge length: keep it
as soon as it no longer exceeds the threshold, otherwise split into the
two halves and recurse. -/
def splitGo (max : ℚ) : ℕ → ℚ → List ℚ
  | 0, L => [L]
  | fuel + 1, L => if L ≤ max then [L] else splitGo max fuel (L / 2) ++ splitGo max fuel (L / 2)

/-- Modelled from the spec (§4.2): the lengths produced from one working
set edge of length `L`. -/
def splitLengths (max L : ℚ) : List ℚ := splitGo max (halveFuel max L) L

/-- Modelled from the spec (§4.2): the lengths produced from a working
set seeded with `lens`. -/
def split_long_edges_lengths (max : ℚ) (lens : List ℚ) : List ℚ :=
  lens.flatMap (splitLengths max)

/-- A one-triangle mesh used as concrete input in witnesses: its three
edges have degree one (patch-boundary), hence are implicitly constrained;
the edge `(0, 1)` has squared length `4`. -/
def demoTri : RState :=
  { faces := [⟨0, 1, 2⟩]
    pt := fun v => if v = 0 then ⟨0, 0, 0⟩ else if v = 1 then ⟨2, 0, 0⟩ else ⟨0, 2, 0⟩
    ec := fun _ => false
    vc := fun _ => false
    touched := [] }

/-- The caller-visible final state of a call: the new state on success,
and the untouched input mesh when the precondition failure aborted the
call before any mutation. -/
def finalState (st : RState) (r : List Event × Except String RState) : RState :=
  match r.2 with
  | .ok st' => st'
  | .error _ => st

/-- The per-edge preservation invariant used for constraint invariance:
relative to the initial state `st0`, the edge `e` has the same number of
bordering faces, the same explicit constraint flag and unchanged endpoint
positions, its endpoints have not been touched, and the mesh is still
valid. -/
def edgeState (e : ℕ × ℕ) (st0 st : RState) : Prop :=
  validMesh st.faces ∧
  deg st.faces e = deg st0.faces e ∧
  st.ec e = st0.ec e ∧
  st.pt e.1 = st0.pt e.1 ∧
  st.pt e.2 = st0.pt e.2 ∧
  e.1 ∉ st.touched ∧
  e.2 ∉ st.touched

/-- A two-triangle strip: faces `{0,1,2}` and `{1,3,2}`.  All four outer
edges have degree one (patch boundary, hence implicitly constrained); the
diagonal `(1,2)` has degree two.  Vertices `0`, `1`, `3` are collinear,
so the constraint polyline through vertex `1` is straight. -/
def cexMesh : RState :=
  { faces := [⟨0, 1, 2⟩, ⟨1, 3, 2⟩]
    pt := fun v =>
      if v = 0 then ⟨0, 0, 0⟩
      else if v = 1 then ⟨1, 0, 0⟩
      else if v = 2 then ⟨2, 3, 0⟩
      else ⟨4, 0, 0⟩
    ec := fun _ => false
    vc := fun _ => false
    touched := [] }

/-- Options of the constraint-invariance counterexample: protection
requested together with `relax_constraints`, projection disabled, one
iteration. -/
def cexParams : NamedParams (Point → Point) :=
  { protect_constraints := true
    relax_constraints := true
    do_project := false }

/-- The events preceding the iteration loop on a non-aborting, non-empty
call. -/
def preEvents (target : ℚ) (np : NamedParams π) : List Event :=
  (if np.protect_constraints then [Event.precondCheck (4 / 3 * target)] else []) ++
  (if np.projection_functor.isNone then [Event.buildAABBTree] else []) ++
  [Event.initRemeshing]

theorem halveFuel_spec {max : ℚ} (hmax : 0 < max) (L : ℚ) :
    L ≤ max * 2 ^ halveFuel max L := by
  have h1 : L / max ≤ (⌈L / max⌉₊ : ℚ) := Nat.le_ceil _
  have h2 : ((⌈L / max⌉₊ : ℕ) : ℚ) ≤ 2 ^ ⌈L / max⌉₊ := by
    exact_mod_cast (Nat.lt_two_pow ⌈L / max⌉₊).le
  have : L / max ≤ 2 ^ halveFuel max L := le_trans h1 h2
  calc L = max * (L / max) := by field_simp
    _ ≤ max * 2 ^ halveFuel max L := by
        exact mul_le_mul_of_nonneg_left this hmax.le

theorem splitGo_succ_def (max L : ℚ) (fuel : ℕ) :
    splitGo max (fuel + 1) L =
      if L ≤ max then [L] else splitGo max fuel (L / 2) ++ splitGo max fuel (L / 2) := rfl

theorem splitGo_of_le {max L : ℚ} (h : L ≤ max) (fuel : ℕ) : splitGo max fuel L = [L] := by
  cases fuel with
  | zero => rfl
  | succ f => simp [splitGo_succ_def, h]

theorem splitGo_all_le {max : ℚ} (_hmax : 0 < max) :
    ∀ (fuel : ℕ) (L : ℚ), L ≤ max * 2 ^ fuel → ∀ x ∈ splitGo max fuel L, x ≤ max := by
  intro fuel
  induction fuel with
  | zero =>
    intro L hL x hx
    rw [pow_zero, mul_one] at hL
    simp only [splitGo, List.mem_singleton] at hx
    exact hx ▸ hL
  | succ f ih =>
    intro L hL x hx
    by_cases h : L ≤ max
    · simp only [splitGo, if_pos h, List.mem_singleton] at hx
      exact hx ▸ h
    · have hhalf : L / 2 ≤ max * 2 ^ f := by
        have h2 : L ≤ max * 2 ^ f * 2 := by
          calc L ≤ max * 2 ^ (f + 1) := hL
            _ = max * 2 ^ f * 2 := by ring
        linarith
      simp only [splitGo, if_neg h, List.mem_append] at hx
      rcases hx with hx | hx
      · exact ih (L / 2) hhalf x hx
      · exact ih (L / 2) hhalf x hx

theorem splitGo_succ {max : ℚ} (_hmax : 0 < max) :
    ∀ (fuel : ℕ) (L : ℚ), L ≤ max * 2 ^ fuel → splitGo max (fuel + 1) L = splitGo max fuel L := by
  intro fuel
  induction fuel with
  | zero =>
    intro L hL
    have : L ≤ max := by simpa using hL
    simp [splitGo_of_le this]
  | succ f ih =>
    intro L hL
    by_cases h : L ≤ max
    · simp [splitGo_of_le h]
    · have hhalf : L / 2 ≤ max * 2 ^ f := by
        have : L ≤ max * 2 ^ f * 2 := by
          calc L ≤ max * 2 ^ (f + 1) := hL
            _ = max * 2 ^ f * 2 := by ring
        linarith
      rw [splitGo_succ_def max L (f + 1), if_neg h, ih (L / 2) hhalf,
        splitGo_succ_def max L f, if_neg h]

theorem splitGo_add {max : ℚ} (hmax : 0 < max) (fuel : ℕ) (L : ℚ)
    (hL : L ≤ max * 2 ^ fuel) (k : ℕ) : splitGo max (fuel + k) L = splitGo max fuel L := by
  induction k with
  | zero => rfl
  | succ j ih =>
    have hL' : L ≤ max * 2 ^ (fuel + j) := by
      calc L ≤ max * 2 ^ fuel := hL
        _ ≤ max * 2 ^ (fuel + j) := by
          have : (2 : ℚ) ^ fuel ≤ 2 ^ (fuel + j) :=
            pow_le_pow_right₀ (by norm_num) (Nat.le_add_right _ _)
          exact mul_le_mul_of_nonneg_left this hmax.le
    calc splitGo max (fuel + (j + 1)) L = splitGo max ((fuel + j) + 1) L := by ring_nf
      _ = splitGo max (fuel + j) L := splitGo_succ hmax (fuel + j) L hL'
      _ = splitGo max fuel L := ih

theorem splitGo_canon {max : ℚ} (hmax : 0 < max) (fuel : ℕ) (L : ℚ)
    (hL : L ≤ max * 2 ^ fuel) : splitGo max fuel L = splitLengths max L := by
  have hh := halveFuel_spec hmax L
  have h1 : splitGo max (fuel + (halveFuel max L)) L = splitGo max fuel L :=
    splitGo_add hmax fuel L hL _
  have h2 : splitGo max (halveFuel max L + fuel) L = splitGo max (halveFuel max L) L :=
    splitGo_add hmax (halveFuel max L) L hh _
  unfold splitLengths
  rw [← h1, Nat.add_comm, h2]

/-- The unbounded recursion equation of the working-set loop: it stops
exactly when the length no longer exceeds the threshold, and otherwise
re-processes the two halves. -/
theorem splitLengths_eq {max : ℚ} (hmax : 0 < max) (L : ℚ) :
    splitLengths max L =
      if L ≤ max then [L] else splitLengths max (L / 2) ++ splitLengths max (L / 2) := by
  by_cases h : L ≤ max
  · simp [splitLengths, splitGo_of_le h, h]
  · have hh := halveFuel_spec hmax L
    obtain ⟨k, hk⟩ : ∃ k, halveFuel max L = k + 1 := by
      cases hfl : halveFuel max L with
      | zero =>
        exfalso
        rw [hfl, pow_zero, mul_one] at hh
        exact h hh
      | succ k => exact ⟨k, rfl⟩
    have hhalf : L / 2 ≤ max * 2 ^ k := by
      rw [hk] at hh
      have h2 : L ≤ max * 2 ^ k * 2 := by
        calc L ≤ max * 2 ^ (k + 1) := hh
          _ = max * 2 ^ k * 2 := by ring
      linarith
    rw [if_neg h]
    show splitGo max (halveFuel max L) L = _
    rw [hk, splitGo_succ_def, if_neg h, splitGo_canon hmax k (L / 2) hhalf]

/-! ## Closest-point projection lemmas (idempotence) -/

theorem sqdist_nonneg (p q : Point) : 0 ≤ sqdist p q := by
  unfold sqdist
  positivity

theorem sqdist_self (q : Point) : sqdist q q = 0 := by
  unfold sqdist
  ring

theorem sqdist_eq_zero {p q : Point} (h : sqdist p q = 0) : p = q := by
  unfold sqdist at h
  have hx : p.x - q.x = 0 := by nlinarith [sq_nonneg (p.x - q.x), sq_nonneg (p.y - q.y), sq_nonneg (p.z - q.z)]
  have hy : p.y - q.y = 0 := by nlinarith [sq_nonneg (p.x - q.x), sq_nonneg (p.y - q.y), sq_nonneg (p.z - q.z)]
  have hz : p.z - q.z = 0 := by nlinarith [sq_nonneg (p.x - q.x), sq_nonneg (p.y - q.y), sq_nonneg (p.z - q.z)]
  cases p
  cases q
  simp only [Point.mk.injEq]
  constructor
  · linarith [hx]
  constructor
  · linarith [hy]
  · linarith [hz]

theorem closestFold_mem (q b : Point) (ps : List Point) :
    ps.foldl (fun best r => if sqdist r q < sqdist best q then r else best) b ∈ b :: ps := by
  induction ps generalizing b with
  | nil => simp
  | cons p ps ih =>
    simp only [List.foldl_cons]
    by_cases h : sqdist p q < sqdist b q
    · rw [if_pos h]
      have := ih p
      simp only [List.mem_cons] at this ⊢
      tauto
    · rw [if_neg h]
      have := ih b
      simp only [List.mem_cons] at this ⊢
      tauto

theorem closestFold_min (q b : Point) (ps : List Point) :
    sqdist (ps.foldl (fun best r => if sqdist r q < sqdist best q then r else best) b) q ≤ sqdist b q ∧
    ∀ x ∈ ps, sqdist (ps.foldl (fun best r => if sqdist r q < sqdist best q then r else best) b) q ≤ sqdist x q := by
  induction ps generalizing b with
  | nil => exact ⟨le_refl _, by simp⟩
  | cons p ps ih =>
    simp only [List.foldl_cons]
    by_cases h : sqdist p q < sqdist b q
    · rw [if_pos h]
      obtain ⟨h1, h2⟩ := ih p
      refine ⟨le_trans h1 h.le, ?_⟩
      intro x hx
      rcases List.mem_cons.1 hx with rfl | hx
      · exact h1
      · exact h2 x hx
    · rw [if_neg h]
      obtain ⟨h1, h2⟩ := ih b
      refine ⟨h1, ?_⟩
      intro x hx
      rcases List.mem_cons.1 hx with rfl | hx
      · exact le_trans h1 (not_lt.1 h)
      · exact h2 x hx

theorem closestPoint_mem (q : Point) {s : List Point} (hs : s ≠ []) : closestPoint q s ∈ s := by
  cases s with
  | nil => exact absurd rfl hs
  | cons p ps => exact closestFold_mem q p ps

theorem closestPoint_min (q : Point) (s : List Point) :
    ∀ x ∈ s, sqdist (closestPoint q s) q ≤ sqdist x q := by
  cases s with
  | nil => simp
  | cons p ps =>
    intro x hx
    rcases List.mem_cons.1 hx with rfl | hx
    · exact (closestFold_min q x ps).1
    · exact (closestFold_min q p ps).2 x hx

/-- A point of the surface is its own closest point, so the closest-point
query is idempotent. -/
theorem closestPoint_idem (q : Point) (s : List Point) :
    closestPoint (closestPoint q s) s = closestPoint q s := by
  by_cases hs : s = []
  · subst hs
    rfl
  · have hc : closestPoint q s ∈ s := closestPoint_mem q hs
    have h0 : sqdist (closestPoint (closestPoint q s) s) (closestPoint q s) ≤ 0 := by
      have := closestPoint_min (closestPoint q s) s (closestPoint q s) hc
      simpa [sqdist_self] using this
    exact sqdist_eq_zero (le_antisymm h0 (sqdist_nonneg _ _))

/-! ## Control-flow lemmas for the orchestrator -/

theorem remesh_trace (R : Remesher σ π) (fn : Bool) (target : ℚ) (pmesh : σ)
    (np : NamedParams π) :
    (isotropic_remeshing R fn target pmesh np).1 =
      if fn = false then []
      else if np.protect_constraints = true ∧
          R.constraints_are_short_enough pmesh (4 / 3 * target) = false then
        [Event.precondCheck (4 / 3 * target)]
      else preEvents target np ++
        (List.replicate np.number_of_iterations
          (iterationEvents target (4 / 5 * target) (4 / 3 * target) np)).flatten := by
  by_cases h1 : fn = false
  · simp [isotropic_remeshing, h1]
  · by_cases h2 : np.protect_constraints = true ∧
        R.constraints_are_short_enough pmesh (4 / 3 * target) = false
    · simp [isotropic_remeshing, h1, h2]
    · simp [isotropic_remeshing, h1, h2, preEvents]

theorem remesh_result (R : Remesher σ π) (fn : Bool) (target : ℚ) (pmesh : σ)
    (np : NamedParams π) :
    (isotropic_remeshing R fn target pmesh np).2 =
      if fn = false then .ok pmesh
      else if np.protect_constraints = true ∧
          R.constraints_are_short_enough pmesh (4 / 3 * target) = false then
        .error abortMsg
      else .ok ((fun s => iterationState R target (4 / 5 * target) (4 / 3 * target) np s)^[np.number_of_iterations]
          (R.init_remeshing pmesh)) := by
  by_cases h1 : fn = false
  · simp [isotropic_remeshing, h1]
  · by_cases h2 : np.protect_constraints = true ∧
        R.constraints_are_short_enough pmesh (4 / 3 * target) = false
    · simp [isotropic_remeshing, h1, h2, abortMsg]
    · simp [isotropic_remeshing, h1, h2]

theorem mem_iterationEvents_shape {target low high : ℚ} {np : NamedParams π} {ev : Event}
    (h : ev ∈ iterationEvents target low high np) :
    (0 < target ∧ (ev = Event.splitStage high ∨
        ev = Event.collapseStage low high np.collapse_constraints)) ∨
    ev = Event.flipStage ∨
    ev = Event.relaxStage np.relax_constraints np.number_of_relaxation_steps ∨
    (np.do_project = true ∧ ev = Event.projectStage) := by
  unfold iterationEvents at h
  by_cases ht : 0 < target
  · by_cases hp : np.do_project
    · simp [ht, hp] at h
      tauto
    · simp [ht, hp] at h
      tauto
  · by_cases hp : np.do_project
    · simp [ht, hp] at h
      tauto
    · simp [ht, hp] at h
      tauto

theorem mem_trace_iteration {R : Remesher σ π} {fn : Bool} {target : ℚ} {pmesh : σ}
    {np : NamedParams π} {ev : Event}
    (h : ev ∈ (isotropic_remeshing R fn target pmesh np).1) :
    ev = Event.precondCheck (4 / 3 * target) ∨ ev = Event.buildAABBTree ∨
    ev = Event.initRemeshing ∨
    ev ∈ iterationEvents target (4 / 5 * target) (4 / 3 * target) np := by
  rw [remesh_trace] at h
  split at h
  · simp at h
  · split at h
    · simp at h
      tauto
    · rcases List.mem_append.1 h with h | h
      · unfold preEvents at h
        rcases List.mem_append.1 h with h | h
        · rcases List.mem_append.1 h with h | h
          · split at h <;> simp at h <;> tauto
          · split at h <;> simp at h <;> tauto
        · simp at h
          tauto
      · rw [List.mem_flatten] at h
        obtain ⟨l, hl, hev⟩ := h
        rw [List.mem_replicate] at hl
        rw [hl.2] at hev
        tauto

theorem build_not_mem_iterationEvents (target low high : ℚ) (np : NamedParams π) :
    Event.buildAABBTree ∉ iterationEvents target low high np := by
  intro h
  rcases mem_iterationEvents_shape h with ⟨_, h | h⟩ | h | h | ⟨_, h⟩ <;>
    exact Event.noConfusion h

/-! ## Claim theorems on the orchestrator -/

/-- C10: calling `isotropic_remeshing` with an empty face range returns
immediately: the mesh state (the mesh and all caller-supplied maps) is
returned unchanged and no event at all — no precondition check, no
initialization, no iteration — is performed (remesh.h l.138-139). -/
theorem C10_empty_face_range {σ π : Type} (R : Remesher σ π) (fn : Bool) (target : ℚ)
    (pmesh : σ) (np : NamedParams π) (h : fn = false) :
    isotropic_remeshing R fn target pmesh np = ([], Except.ok pmesh) := by
  subst h
  simp [isotropic_remeshing]

/-- Witness for C10: a concrete call with an empty face range. -/
theorem C10_empty_face_range_witness :
    isotropic_remeshing unitRemesher false 1 () ({} : NamedParams Unit) = ([], Except.ok ()) :=
  C10_empty_face_range unitRemesher false 1 () {} rfl

/-- C2: with `target_edge_length = 0`, no call — whatever the remesher,
mesh and options — ever performs a split or a collapse stage: every
emitted event is neither a split nor a collapse, and the state
transformation of every iteration is exactly flip, then relaxation, then
(when `do_project` is set) projection (remesh.h l.248-256). -/
theorem C2_zero_target {σ π : Type} (R : Remesher σ π) (fn : Bool) (target : ℚ)
    (pmesh : σ) (np : NamedParams π) (h : target = 0) :
    (∀ ev ∈ (isotropic_remeshing R fn target pmesh np).1,
        isSplitEvent ev = false ∧ isCollapseEvent ev = false) ∧
    (∀ s : σ, iterationState R target (4 / 5 * target) (4 / 3 * target) np s =
        (if np.do_project then
          R.project_to_surface np.projection_functor
            (R.tangential_relaxation np.relax_constraints np.number_of_relaxation_steps
              (R.equalize_valences s))
         else
          R.tangential_relaxation np.relax_constraints np.number_of_relaxation_steps
            (R.equalize_valences s))) := by
  subst h
  constructor
  · intro ev hev
    rcases mem_trace_iteration hev with h | h | h | h
    · subst h
      exact ⟨rfl, rfl⟩
    · subst h
      exact ⟨rfl, rfl⟩
    · subst h
      exact ⟨rfl, rfl⟩
    · rcases mem_iterationEvents_shape h with ⟨h0, _⟩ | h | h | ⟨_, h⟩
      · exact absurd h0 (by norm_num)
      · subst h
        exact ⟨rfl, rfl⟩
      · subst h
        exact ⟨rfl, rfl⟩
      · subst h
        exact ⟨rfl, rfl⟩
  · intro s
    simp [iterationState]

/-- Witness for C2: a concrete call with zero target edge length. -/
theorem C2_zero_target_witness :
    (∀ ev ∈ (isotropic_remeshing unitRemesher true 0 () ({} : NamedParams Unit)).1,
        isSplitEvent ev = false ∧ isCollapseEvent ev = false) ∧
    (∀ s : Unit, iterationState unitRemesher 0 (4 / 5 * 0) (4 / 3 * 0) ({} : NamedParams Unit) s =
        (if ({} : NamedParams Unit).do_project then
          unitRemesher.project_to_surface ({} : NamedParams Unit).projection_functor
            (unitRemesher.tangential_relaxation ({} : NamedParams Unit).relax_constraints
              ({} : NamedParams Unit).number_of_relaxation_steps (unitRemesher.equalize_valences s))
         else
          unitRemesher.tangential_relaxation ({} : NamedParams Unit).relax_constraints
            ({} : NamedParams Unit).number_of_relaxation_steps (unitRemesher.equalize_valences s))) :=
  C2_zero_target unitRemesher true 0 () {} rfl

/-- C9: every split stage a call ever runs is passed the threshold
`4/3 * target_edge_length`, and every collapse stage is passed the
thresholds `4/5 * target_edge_length` and `4/3 * target_edge_length`
together with the `collapse_constraints` option (remesh.h l.199-200,
l.250-251). -/
theorem C9_thresholds {σ π : Type} (R : Remesher σ π) (fn : Bool) (target : ℚ)
    (pmesh : σ) (np : NamedParams π) :
    (∀ hq : ℚ, Event.splitStage hq ∈ (isotropic_remeshing R fn target pmesh np).1 →
      hq = 4 / 3 * target) ∧
    (∀ lq hq : ℚ, ∀ cc : Bool,
      Event.collapseStage lq hq cc ∈ (isotropic_remeshing R fn target pmesh np).1 →
      lq = 4 / 5 * target ∧ hq = 4 / 3 * target ∧ cc = np.collapse_constraints) := by
  constructor
  · intro hq hmem
    rcases mem_trace_iteration hmem with h | h | h | h
    · exact absurd h (by simp)
    · exact absurd h (by simp)
    · exact absurd h (by simp)
    · rcases mem_iterationEvents_shape h with ⟨_, h | h⟩ | h | h | ⟨_, h⟩
      · simp only [Event.splitStage.injEq] at h
        exact h
      · exact Event.noConfusion h
      · exact Event.noConfusion h
      · exact Event.noConfusion h
      · exact Event.noConfusion h
  · intro lq hq cc hmem
    rcases mem_trace_iteration hmem with h | h | h | h
    · exact absurd h (by simp)
    · exact absurd h (by simp)
    · exact absurd h (by simp)
    · rcases mem_iterationEvents_shape h with ⟨_, h | h⟩ | h | h | ⟨_, h⟩
      · exact Event.noConfusion h
      · simp only [Event.collapseStage.injEq] at h
        exact h
      · exact Event.noConfusion h
      · exact Event.noConfusion h
      · exact Event.noConfusion h

/-- Witness for C9: a concrete call with `target_edge_length = 3` whose
trace contains a split stage with threshold `4` and a collapse stage with
thresholds `12/5` and `4`. -/
theorem C9_thresholds_witness :
    ((4 : ℚ) = 4 / 3 * 3) ∧ ((12 / 5 : ℚ) = 4 / 5 * 3 ∧ (4 : ℚ) = 4 / 3 * 3 ∧ true = true) :=
  ⟨(C9_thresholds unitRemesher true 3 () ({} : NamedParams Unit)).1 4
      (by rw [remesh_trace]; simp [preEvents, iterationEvents]; try norm_num),
   (C9_thresholds unitRemesher true 3 () ({} : NamedParams Unit)).2 (12 / 5) 4 true
      (by rw [remesh_trace]; simp [preEvents, iterationEvents]; try norm_num)⟩

/-- C7: when a projection functor is supplied, the AABB tree is not
built at all; when none is supplied and the call proceeds (non-empty
range, precondition holds), the tree is built exactly once, during
initialization and before any stage runs, and never rebuilt inside the
iterations (remesh.h l.155-156, l.222-224). -/
theorem C7_aabb_tree {σ π : Type} (R : Remesher σ π) (fn : Bool) (target : ℚ)
    (pmesh : σ) (np : NamedParams π) :
    (np.projection_functor.isSome = true →
      Event.buildAABBTree ∉ (isotropic_remeshing R fn target pmesh np).1) ∧
    (np.projection_functor = none → fn = true →
      (np.protect_constraints = true →
        R.constraints_are_short_enough pmesh (4 / 3 * target) = true) →
      (isotropic_remeshing R fn target pmesh np).1 =
        (if np.protect_constraints then [Event.precondCheck (4 / 3 * target)] else []) ++
          Event.buildAABBTree :: Event.initRemeshing ::
            (List.replicate np.number_of_iterations
              (iterationEvents target (4 / 5 * target) (4 / 3 * target) np)).flatten ∧
      Event.buildAABBTree ∉
        (List.replicate np.number_of_iterations
          (iterationEvents target (4 / 5 * target) (4 / 3 * target) np)).flatten) := by
  constructor
  · intro hsome hmem
    rw [remesh_trace] at hmem
    split at hmem
    · simp at hmem
    · split at hmem
      · simp at hmem
      · rcases List.mem_append.1 hmem with h | h
        · unfold preEvents at h
          rcases List.mem_append.1 h with h | h
          · rcases List.mem_append.1 h with h | h
            · split at h <;> simp at h
            · rcases Option.isSome_iff_exists.1 hsome with ⟨f, hf⟩
              rw [hf] at h
              simp at h
          · simp at h
        · rw [List.mem_flatten] at h
          obtain ⟨l, hl, hev⟩ := h
          rw [List.mem_replicate] at hl
          rw [hl.2] at hev
          exact build_not_mem_iterationEvents _ _ _ _ hev
  · intro hnone hfn hok
    constructor
    · rw [remesh_trace, if_neg (by simp [hfn])]
      rw [if_neg ?_]
      · simp [preEvents, hnone, List.append_assoc]
      · rintro ⟨hprot, hcse⟩
        rw [hok hprot] at hcse
        exact Bool.noConfusion hcse
    · intro hmem
      rw [List.mem_flatten] at hmem
      obtain ⟨l, hl, hev⟩ := hmem
      rw [List.mem_replicate] at hl
      rw [hl.2] at hev
      exact build_not_mem_iterationEvents _ _ _ _ hev

/-- Witness for C7: with a supplied functor the tree is never built; at
the same concrete input without a functor it is built exactly once before
the iterations. -/
theorem C7_aabb_tree_witness :
    (Event.buildAABBTree ∉
      (isotropic_remeshing unitRemesher true 1 ()
        { projection_functor := some () }).1) ∧
    ((isotropic_remeshing unitRemesher true 1 () ({} : NamedParams Unit)).1 =
      ([] : List Event) ++ Event.buildAABBTree :: Event.initRemeshing ::
        (List.replicate 1 (iterationEvents 1 (4 / 5 * 1) (4 / 3 * 1) ({} : NamedParams Unit))).flatten ∧
     Event.buildAABBTree ∉
      (List.replicate 1 (iterationEvents 1 (4 / 5 * 1) (4 / 3 * 1) ({} : NamedParams Unit))).flatten) :=
  ⟨(C7_aabb_tree unitRemesher true 1 () { projection_functor := some () }).1 rfl,
   (C7_aabb_tree unitRemesher true 1 () ({} : NamedParams Unit)).2 rfl rfl (fun _ => rfl)⟩

/-- C5 (amended): on a call with a non-empty face range that passes the
precondition check, with `target_edge_length > 0` and `do_project` left
at its default `true`, the orchestrator runs exactly
`number_of_iterations` iterations, and each iteration executes the five
stages split, collapse, flip, relaxation, projection completely and in
that fixed order with no interleaving (remesh.h l.243-260).  As stated
in the claim — for every option set — this is false: with
`target_edge_length = 0` the split and collapse stages are skipped (and
with `do_project = false` the projection stage is skipped); see the
counterexample. -/
theorem C5_fixed_stage_order {σ π : Type} (R : Remesher σ π) (target : ℚ)
    (pmesh : σ) (np : NamedParams π) (ht : 0 < target) (hp : np.do_project = true)
    (hok : np.protect_constraints = true →
      R.constraints_are_short_enough pmesh (4 / 3 * target) = true) :
    (isotropic_remeshing R true target pmesh np).1 =
      preEvents target np ++
        (List.replicate np.number_of_iterations
          [Event.splitStage (4 / 3 * target),
           Event.collapseStage (4 / 5 * target) (4 / 3 * target) np.collapse_constraints,
           Event.flipStage,
           Event.relaxStage np.relax_constraints np.number_of_relaxation_steps,
           Event.projectStage]).flatten ∧
    (isotropic_remeshing R true target pmesh np).2 =
      Except.ok ((fun s =>
          R.project_to_surface np.projection_functor
            (R.tangential_relaxation np.relax_constraints np.number_of_relaxation_steps
              (R.equalize_valences
                (R.collapse_short_edges (4 / 5 * target) (4 / 3 * target)
                  np.collapse_constraints
                  (R.split_long_edges (4 / 3 * target) s)))))^[np.number_of_iterations]
        (R.init_remeshing pmesh)) := by
  have habort : ¬ (np.protect_constraints = true ∧
      R.constraints_are_short_enough pmesh (4 / 3 * target) = false) := by
    rintro ⟨hprot, hcse⟩
    rw [hok hprot] at hcse
    exact Bool.noConfusion hcse
  constructor
  · rw [remesh_trace, if_neg (by simp), if_neg habort]
    have : iterationEvents target (4 / 5 * target) (4 / 3 * target) np =
        [Event.splitStage (4 / 3 * target),
         Event.collapseStage (4 / 5 * target) (4 / 3 * target) np.collapse_constraints,
         Event.flipStage,
         Event.relaxStage np.relax_constraints np.number_of_relaxation_steps,
         Event.projectStage] := by
      simp [iterationEvents, ht, hp]
    rw [this]
  · rw [remesh_result, if_neg (by simp), if_neg habort]
    have : (fun s => iterationState R target (4 / 5 * target) (4 / 3 * target) np s) =
        (fun s =>
          R.project_to_surface np.projection_functor
            (R.tangential_relaxation np.relax_constraints np.number_of_relaxation_steps
              (R.equalize_valences
                (R.collapse_short_edges (4 / 5 * target) (4 / 3 * target)
                  np.collapse_constraints
                  (R.split_long_edges (4 / 3 * target) s))))) := by
      funext s
      simp [iterationState, ht, hp]
    rw [this]

/-- Witness for C5 (amended): a concrete one-iteration call with
`target_edge_length = 1`. -/
theorem C5_fixed_stage_order_witness :
    (isotropic_remeshing unitRemesher true 1 () ({} : NamedParams Unit)).1 =
      preEvents 1 ({} : NamedParams Unit) ++
        (List.replicate 1
          [Event.splitStage (4 / 3 * 1), Event.collapseStage (4 / 5 * 1) (4 / 3 * 1) true,
           Event.flipStage, Event.relaxStage false 1, Event.projectStage]).flatten :=
  (C5_fixed_stage_order unitRemesher 1 () {} (by norm_num) rfl (fun _ => rfl)).1

/-- Counterexample to C5 as stated: a call with one iteration and
`target_edge_length = 0` runs no split stage at all (its single
iteration performs only flip, relaxation and projection), so not every
iteration executes the five stages. -/
theorem C5_counterexample :
    (isotropic_remeshing unitRemesher true 0 () ({} : NamedParams Unit)).1 =
      [Event.buildAABBTree, Event.initRemeshing, Event.flipStage,
       Event.relaxStage false 1, Event.projectStage] ∧
    ({} : NamedParams Unit).number_of_iterations = 1 ∧
    (isotropic_remeshing unitRemesher true 0 () ({} : NamedParams Unit)).1.filter isSplitEvent = [] ∧
    (isotropic_remeshing unitRemesher true 0 () ({} : NamedParams Unit)).1.filter isCollapseEvent = [] := by
  refine ⟨?_, rfl, ?_, ?_⟩ <;>
    simp [isotropic_remeshing, iterationEvents, isSplitEvent, isCollapseEvent]

/-- C6: the working-set loop of `split_long_edges` terminates for every
positive threshold (`splitLengths` and `split_long_edges_lengths` are
total functions satisfying the loop's recursion equation): on exit every
produced edge length is at most `max_length`; an edge is re-processed
exactly as long as it exceeds the threshold; and each split produces two
sub-edges (the two halves) strictly shorter than their parent. -/
theorem C6_split_termination (max : ℚ) (hmax : 0 < max) (lens : List ℚ) (L : ℚ) :
    (∀ x ∈ split_long_edges_lengths max lens, x ≤ max) ∧
    (splitLengths max L =
      if L ≤ max then [L] else splitLengths max (L / 2) ++ splitLengths max (L / 2)) ∧
    (max < L → L / 2 < L) := by
  refine ⟨?_, splitLengths_eq hmax L, ?_⟩
  · intro x hx
    rw [split_long_edges_lengths, List.mem_flatMap] at hx
    obtain ⟨L', _, hx⟩ := hx
    exact splitGo_all_le hmax _ L' (halveFuel_spec hmax L') x hx
  · intro hL
    linarith

/-- Witness for C6: threshold `1` on a working set holding lengths `5`
and `1/2`. -/
theorem C6_split_termination_witness :
    (0 : ℚ) < 1 ∧
    ((∀ x ∈ split_long_edges_lengths 1 [5, 1 / 2], x ≤ 1) ∧
     (splitLengths 1 5 =
       if (5 : ℚ) ≤ 1 then [5] else splitLengths 1 (5 / 2) ++ splitLengths 1 (5 / 2)) ∧
     ((1 : ℚ) < 5 → (5 : ℚ) / 2 < 5)) :=
  ⟨by norm_num, C6_split_termination 1 (by norm_num) [5, 1 / 2] 5⟩

/-- C8: the projection stage with the default (closest-point) projector
is idempotent: applying `project_to_surface` twice in succession with no
intervening mutation yields the same vertex point map as applying it
once, because each projected point is already the closest point of the
reference surface. -/
theorem C8_projection_idempotent (protect : Bool) (fuel : ℕ) (S : List Point)
    (st : RState) (v : ℕ) :
    ((remesherT protect fuel S).project_to_surface none
        ((remesherT protect fuel S).project_to_surface none st)).pt v =
      ((remesherT protect fuel S).project_to_surface none st).pt v := by
  show (project_to_surface_impl S none (project_to_surface_impl S none st)).pt v =
    (project_to_surface_impl S none st).pt v
  simp only [project_to_surface_impl, projectWith, Option.getD_none]
  by_cases h : v ∈ st.touched
  · simp [h, closestPoint_idem]
  · simp [h]

theorem constraints_short_false {st : RState} {bound : ℚ} {e : ℕ × ℕ}
    (he : e ∈ edgesOf st.faces) (hc : constrainedE st e = true)
    (hlen : bound ^ 2 < sqlen st e) : constraints_short st bound = false := by
  rw [Bool.eq_false_iff]
  intro hall
  rw [constraints_short, List.all_eq_true] at hall
  have h := hall e he
  rw [hc] at h
  simp only [Bool.not_true, Bool.false_or, decide_eq_true_eq] at h
  linarith

/-- C1: on a call with a non-empty face range, `protect_constraints`
set, and some constrained edge (explicitly constrained or patch-boundary)
of length strictly greater than `4/3 * target_edge_length` (stated on
squared lengths), the whole call is exactly the precondition check
followed by the abort: the check runs once, no initialization, no AABB
construction and no stage event happens, no iteration begins, and no
final state is produced — the caller's mesh and maps are untouched
(remesh.h l.202-212). -/
theorem C1_protect_precondition (fuel : ℕ) (S : List Point) (target : ℚ)
    (st : RState) (np : NamedParams (Point → Point)) (e : ℕ × ℕ)
    (hp : np.protect_constraints = true)
    (he : e ∈ edgesOf st.faces) (hc : constrainedE st e = true)
    (hlen : (4 / 3 * target) ^ 2 < sqlen st e) :
    isotropic_remeshing (remesherT true fuel S) true target st np =
      ([Event.precondCheck (4 / 3 * target)], Except.error abortMsg) := by
  have hcse : constraints_short st (4 / 3 * target) = false :=
    constraints_short_false he hc hlen
  simp only [isotropic_remeshing]
  rw [if_neg (by simp), if_pos ⟨hp, hcse⟩]

/-- Witness for C1: the one-triangle mesh with boundary (hence
constrained) edge `(0, 1)` of squared length `4 > (4/3)^2`, remeshed
with `target_edge_length = 1` under protection. -/
theorem C1_protect_precondition_witness :
    ((0, 1) ∈ edgesOf demoTri.faces ∧ constrainedE demoTri (0, 1) = true ∧
      (4 / 3 * 1 : ℚ) ^ 2 < sqlen demoTri (0, 1)) ∧
    isotropic_remeshing (remesherT true 0 []) true 1 demoTri
        ({ protect_constraints := true } : NamedParams (Point → Point)) =
      ([Event.precondCheck (4 / 3 * 1)], Except.error abortMsg) :=
  ⟨⟨by decide, by decide, by norm_num [demoTri, sqlen, sqdist]⟩,
   C1_protect_precondition 0 [] 1 demoTri { protect_constraints := true } (0, 1)
     rfl (by decide) (by decide) (by norm_num [demoTri, sqlen, sqdist])⟩

/-! ## Simplicial mesh lemmas -/

theorem vmemB_iff {v : ℕ} {f : Face} : vmemB v f = true ↔ v = f.a ∨ v = f.b ∨ v = f.c := by
  simp [vmemB, or_assoc]

theorem hasEdge_iff {e : ℕ × ℕ} {f : Face} :
    hasEdge e f = true ↔
      (e.1 = f.a ∨ e.1 = f.b ∨ e.1 = f.c) ∧ (e.2 = f.a ∨ e.2 = f.b ∨ e.2 = f.c) := by
  simp [hasEdge, vmemB, or_assoc]

theorem hasEdge_swap (x y : ℕ) (f : Face) : hasEdge (x, y) f = hasEdge (y, x) f := by
  simp [hasEdge, Bool.and_comm]

theorem hasEdge_und (x y : ℕ) (f : Face) : hasEdge (und x y) f = hasEdge (x, y) f := by
  unfold und
  split
  · rfl
  · exact hasEdge_swap y x f

theorem und_of_le {x y : ℕ} (h : x ≤ y) : und x y = (x, y) := if_pos h

theorem und_of_gt {x y : ℕ} (h : ¬ x ≤ y) : und x y = (y, x) := if_neg h

theorem und_comm (x y : ℕ) : und x y = und y x := by
  by_cases h1 : x ≤ y
  · by_cases h2 : y ≤ x
    · obtain rfl := le_antisymm h1 h2
      rfl
    · rw [und_of_le h1, und_of_gt h2]
  · rw [und_of_gt h1, und_of_le (by omega)]

theorem und_idem (x y : ℕ) : und (und x y).1 (und x y).2 = und x y := by
  by_cases h : x ≤ y
  · rw [und_of_le h]
    exact und_of_le h
  · rw [und_of_gt h]
    exact und_of_le (by omega)

theorem und_fst_le (x y : ℕ) : (und x y).1 ≤ (und x y).2 := by
  by_cases h : x ≤ y
  · rw [und_of_le h]
    exact h
  · rw [und_of_gt h]
    omega

theorem und_eta {e : ℕ × ℕ} (h : e.1 ≤ e.2) : und e.1 e.2 = e := by
  unfold und
  rw [if_pos h]

theorem deg_swap (fs : List Face) (x y : ℕ) : deg fs (x, y) = deg fs (y, x) := by
  unfold deg
  exact List.countP_congr fun f _ => by rw [hasEdge_swap]

theorem deg_und (fs : List Face) (x y : ℕ) : deg fs (und x y) = deg fs (x, y) := by
  unfold deg
  exact List.countP_congr fun f _ => by rw [hasEdge_und]

theorem mem_faceEdges_shape {d : ℕ × ℕ} {f : Face} (h : d ∈ faceEdges f) :
    d = und f.a f.b ∨ d = und f.b f.c ∨ d = und f.a f.c := by
  simpa [faceEdges] using h

theorem mem_edgesOf_norm {e : ℕ × ℕ} {fs : List Face} (h : e ∈ edgesOf fs) :
    und e.1 e.2 = e := by
  rw [edgesOf, List.mem_dedup, List.mem_flatMap] at h
  obtain ⟨f, _, hf⟩ := h
  rcases mem_faceEdges_shape hf with h | h | h <;> (subst h; exact und_idem _ _)

theorem und_mem_faceEdges {x y : ℕ} {f : Face}
    (hx : vmemB x f = true) (hy : vmemB y f = true) (hxy : x ≠ y) :
    und x y ∈ faceEdges f := by
  rw [vmemB_iff] at hx hy
  simp only [faceEdges, List.mem_cons, List.not_mem_nil, or_false]
  rcases hx with h1 | h1 | h1 <;> rcases hy with h2 | h2 | h2 <;> subst h1 <;> subst h2 <;>
    first
      | exact absurd rfl hxy
      | exact Or.inl rfl
      | exact Or.inr (Or.inl rfl)
      | exact Or.inr (Or.inr rfl)
      | exact Or.inl (und_comm _ _)
      | exact Or.inr (Or.inl (und_comm _ _))
      | exact Or.inr (Or.inr (und_comm _ _))

theorem hasEdge_mem_edgesOf {e : ℕ × ℕ} {f : Face} {fs : List Face}
    (hf : f ∈ fs) (he : hasEdge e f = true) (hne : e.1 ≠ e.2) :
    und e.1 e.2 ∈ edgesOf fs := by
  rw [edgesOf, List.mem_dedup, List.mem_flatMap]
  rw [hasEdge] at he
  rcases Bool.and_eq_true_iff.1 he with ⟨h1, h2⟩
  exact ⟨f, hf, und_mem_faceEdges h1 h2 hne⟩

theorem foldr_max_le {l : List ℕ} {x : ℕ} (h : x ∈ l) : x ≤ l.foldr max 0 := by
  induction l with
  | nil => simp at h
  | cons y l ih =>
    rcases List.mem_cons.1 h with rfl | h
    · exact le_max_left _ _
    · exact le_trans (ih h) (le_max_right _ _)

theorem lt_freshVert {fs : List Face} {f : Face} {v : ℕ}
    (hf : f ∈ fs) (hv : vmemB v f = true) : v < freshVert fs := by
  have hm : max f.a (max f.b f.c) ∈ fs.map fun f => max f.a (max f.b f.c) :=
    List.mem_map_of_mem _ hf
  have hle := foldr_max_le hm
  have hlt : max f.a (max f.b f.c) < freshVert fs := by
    unfold freshVert
    omega
  rcases vmemB_iff.1 hv with h | h | h <;> subst h
  · exact lt_of_le_of_lt (le_max_left _ _) hlt
  · exact lt_of_le_of_lt (le_trans (le_max_left _ _) (le_max_right _ _)) hlt
  · exact lt_of_le_of_lt (le_trans (le_max_right _ _) (le_max_right _ _)) hlt

theorem vmemB_fresh {fs : List Face} {f : Face} (hf : f ∈ fs) :
    vmemB (freshVert fs) f = false := by
  rw [Bool.eq_false_iff]
  intro h
  exact absurd (lt_freshVert hf h) (lt_irrefl _)

theorem face_shape {f : Face} {x y : ℕ} (htri : triOKf f)
    (hf : hasEdge (x, y) f = true) (hne : x ≠ y) :
    third (x, y) f ≠ x ∧ third (x, y) f ≠ y ∧ vmemB (third (x, y) f) f = true ∧
    (∀ v : ℕ, vmemB v f = true ↔ (v = x ∨ v = y ∨ v = third (x, y) f)) := by
  obtain ⟨hab, hbc, hac⟩ := htri
  obtain ⟨h1, h2⟩ := hasEdge_iff.1 hf
  simp only at h1 h2
  have hvA : vmemB f.a f = true := by simp [vmemB]
  have hvB : vmemB f.b f = true := by simp [vmemB]
  have hvC : vmemB f.c f = true := by simp [vmemB]
  rcases h1 with rfl | rfl | rfl <;> rcases h2 with rfl | rfl | rfl
  · exact absurd rfl hne
  · have ht : third (f.a, f.b) f = f.c := by
      unfold third
      rw [if_neg (by simp), if_neg (by simp)]
    rw [ht]
    exact ⟨Ne.symm hac, Ne.symm hbc, hvC, fun v => by rw [vmemB_iff]⟩
  · have ht : third (f.a, f.c) f = f.b := by
      unfold third
      rw [if_neg (by simp), if_pos ⟨Ne.symm hab, hbc⟩]
    rw [ht]
    exact ⟨Ne.symm hab, hbc, hvB, fun v => by rw [vmemB_iff]; tauto⟩
  · have ht : third (f.b, f.a) f = f.c := by
      unfold third
      rw [if_neg (by simp), if_neg (by simp)]
    rw [ht]
    exact ⟨Ne.symm hbc, Ne.symm hac, hvC, fun v => by rw [vmemB_iff]; tauto⟩
  · exact absurd rfl hne
  · have ht : third (f.b, f.c) f = f.a := by
      unfold third
      rw [if_pos ⟨hab, hac⟩]
    rw [ht]
    exact ⟨hab, hac, hvA, fun v => by rw [vmemB_iff]; tauto⟩
  · have ht : third (f.c, f.a) f = f.b := by
      unfold third
      rw [if_neg (by simp), if_pos ⟨hbc, Ne.symm hab⟩]
    rw [ht]
    exact ⟨hbc, Ne.symm hab, hvB, fun v => by rw [vmemB_iff]; tauto⟩
  · have ht : third (f.c, f.b) f = f.a := by
      unfold third
      rw [if_pos ⟨hac, hab⟩]
    rw [ht]
    exact ⟨hac, hab, hvA, fun v => by rw [vmemB_iff]; tauto⟩
  · exact absurd rfl hne

set_option maxHeartbeats 1600000 in
theorem split_face_count_other {x y : ℕ} {f : Face} {m : ℕ} (htri : triOKf f)
    (hface : hasEdge (x, y) f = true) (hne : x ≠ y) (hm : vmemB m f = false)
    {e' : ℕ × ℕ} (hm1 : e'.1 ≠ m) (hm2 : e'.2 ≠ m)
    (hdiff : ¬((e'.1 = x ∧ e'.2 = y) ∨ (e'.1 = y ∧ e'.2 = x)))
    (hne' : e'.1 ≠ e'.2) :
    List.countP (hasEdge e') [Face.mk x m (third (x, y) f), Face.mk m y (third (x, y) f)] =
      List.countP (hasEdge e') [f] := by
  obtain ⟨hc1, hc2, hcmem, hchar⟩ := face_shape htri hface hne
  set c := third (x, y) f with hcdef
  have hmm : ¬ (m = x ∨ m = y ∨ m = c) := fun h => by
    rw [(hchar m).mpr h] at hm
    exact Bool.noConfusion hm
  push_neg at hmm
  obtain ⟨hmx, hmy, hmc⟩ := hmm
  have hA := hchar e'.1
  have hB := hchar e'.2
  have H1 : hasEdge e' ⟨x, m, c⟩ = true ↔
      (e'.1 = x ∨ e'.1 = m ∨ e'.1 = c) ∧ (e'.2 = x ∨ e'.2 = m ∨ e'.2 = c) := hasEdge_iff
  have H2 : hasEdge e' ⟨m, y, c⟩ = true ↔
      (e'.1 = m ∨ e'.1 = y ∨ e'.1 = c) ∧ (e'.2 = m ∨ e'.2 = y ∨ e'.2 = c) := hasEdge_iff
  have H3 : hasEdge e' f = true ↔
      (e'.1 = x ∨ e'.1 = y ∨ e'.1 = c) ∧ (e'.2 = x ∨ e'.2 = y ∨ e'.2 = c) := by
    rw [show hasEdge e' f = (vmemB e'.1 f && vmemB e'.2 f) from rfl, Bool.and_eq_true, hA, hB]
  simp only [List.countP_cons, List.countP_nil, H1, H2, H3]
  clear hA hB hchar H1 H2 H3 hm hface hcmem
  by_cases p1 : (e'.1 = x ∨ e'.1 = m ∨ e'.1 = c) ∧ (e'.2 = x ∨ e'.2 = m ∨ e'.2 = c) <;>
  by_cases p2 : (e'.1 = m ∨ e'.1 = y ∨ e'.1 = c) ∧ (e'.2 = m ∨ e'.2 = y ∨ e'.2 = c) <;>
  by_cases p3 : (e'.1 = x ∨ e'.1 = y ∨ e'.1 = c) ∧ (e'.2 = x ∨ e'.2 = y ∨ e'.2 = c) <;>
    simp only [p1, p2, p3, if_true, if_false] <;>
    omega

theorem und_spec {u v : ℕ} :
    (und u v).1 = u ∧ (und u v).2 = v ∨ (und u v).1 = v ∧ (und u v).2 = u := by
  by_cases h : u ≤ v
  · rw [und_of_le h]
    exact Or.inl ⟨rfl, rfl⟩
  · rw [und_of_gt h]
    exact Or.inr ⟨rfl, rfl⟩

theorem faceEdges_spec {f : Face} (htri : triOKf f) {d : ℕ × ℕ} (hd : d ∈ faceEdges f) :
    d.1 ≠ d.2 ∧ vmemB d.1 f = true ∧ vmemB d.2 f = true := by
  obtain ⟨hab, hbc, hac⟩ := htri
  have key : ∀ u v : ℕ, u ≠ v → vmemB u f = true → vmemB v f = true →
      (und u v).1 ≠ (und u v).2 ∧ vmemB (und u v).1 f = true ∧ vmemB (und u v).2 f = true := by
    intro u v huv hu hv
    rcases @und_spec u v with ⟨h1, h2⟩ | ⟨h1, h2⟩ <;> rw [h1, h2]
    · exact ⟨huv, hu, hv⟩
    · exact ⟨Ne.symm huv, hv, hu⟩
  rcases mem_faceEdges_shape hd with rfl | rfl | rfl
  · exact key f.a f.b hab (by simp [vmemB]) (by simp [vmemB])
  · exact key f.b f.c hbc (by simp [vmemB]) (by simp [vmemB])
  · exact key f.a f.c hac (by simp [vmemB]) (by simp [vmemB])

theorem validMesh_deg_le {fs : List Face} (hv : validMesh fs) {u v : ℕ} {f : Face}
    (hf : f ∈ fs) (hu : vmemB u f = true) (hvv : vmemB v f = true) (huv : u ≠ v) :
    deg fs (u, v) ≤ 2 := by
  have h := hv.2.2 f hf (und u v) (und_mem_faceEdges hu hvv huv)
  rw [deg_und] at h
  exact h

theorem sameVerts_symm {f g : Face} (h : sameVerts f g) : sameVerts g f := ⟨h.2, h.1⟩

theorem sameVerts_mem {f g : Face} (h : sameVerts f g) {v : ℕ} (hv : vmemB v f = true) :
    vmemB v g = true := by
  obtain ⟨⟨ha, hb, hc⟩, _⟩ := h
  rcases vmemB_iff.1 hv with rfl | rfl | rfl <;> assumption

theorem not_sameVerts {f g : Face} {v : ℕ} (hvf : vmemB v f = true)
    (hvg : vmemB v g = false) : ¬ sameVerts f g := fun hs => by
  rw [sameVerts_mem hs hvf] at hvg
  exact Bool.noConfusion hvg

theorem countP_le_one_of_pairwise {α : Type} {p : α → Bool} {R : α → α → Prop} :
    ∀ {l : List α}, List.Pairwise R l →
      (∀ a ∈ l, ∀ b ∈ l, p a = true → p b = true → ¬ R a b) → l.countP p ≤ 1 := by
  intro l hl
  induction hl with
  | nil => simp
  | @cons a l hhead htail ih =>
    intro h
    rw [List.countP_cons]
    by_cases hpa : p a = true
    · have hzero : l.countP p = 0 := by
        rw [List.countP_eq_zero]
        intro b hb hpb
        exact h a (by simp) b (List.mem_cons_of_mem a hb) hpa hpb (hhead b hb)
      rw [hzero, hpa]
      simp
    · rw [Bool.not_eq_true] at hpa
      rw [hpa]
      simpa using ih fun u hu v hv => h u (List.mem_cons_of_mem a hu) v (List.mem_cons_of_mem a hv)

theorem pairwise_flatMap {α β : Type} {R : β → β → Prop} :
    ∀ {l : List α} {g : α → List β},
      (∀ a ∈ l, List.Pairwise R (g a)) →
      List.Pairwise (fun a b => ∀ u ∈ g a, ∀ v ∈ g b, R u v) l →
      List.Pairwise R (l.flatMap g) := by
  intro l g hwithin hacross
  induction l with
  | nil => simp
  | cons a l ih =>
    rw [List.flatMap_cons, List.pairwise_append]
    obtain ⟨hrel, htail⟩ := List.pairwise_cons.1 hacross
    refine ⟨hwithin a (by simp), ih (fun b hb => hwithin b (List.mem_cons_of_mem a hb)) htail, ?_⟩
    intro u hu v hv
    rw [List.mem_flatMap] at hv
    obtain ⟨b, hb, hvb⟩ := hv
    exact hrel b hb u hu v hvb

theorem sameVerts_of_same_third {x y : ℕ} {f g : Face} (htf : triOKf f) (htg : triOKf g)
    (hf : hasEdge (x, y) f = true) (hg : hasEdge (x, y) g = true) (hne : x ≠ y)
    (h3 : third (x, y) f = third (x, y) g) : sameVerts f g := by
  obtain ⟨_, _, _, hcf⟩ := face_shape htf hf hne
  obtain ⟨_, _, _, hcg⟩ := face_shape htg hg hne
  refine ⟨⟨?_, ?_, ?_⟩, ?_, ?_, ?_⟩
  · exact (hcg f.a).mpr (h3 ▸ (hcf f.a).mp (by simp [vmemB]))
  · exact (hcg f.b).mpr (h3 ▸ (hcf f.b).mp (by simp [vmemB]))
  · exact (hcg f.c).mpr (h3 ▸ (hcf f.c).mp (by simp [vmemB]))
  · exact (hcf g.a).mpr (h3.symm ▸ (hcg g.a).mp (by simp [vmemB]))
  · exact (hcf g.b).mpr (h3.symm ▸ (hcg g.b).mp (by simp [vmemB]))
  · exact (hcf g.c).mpr (h3.symm ▸ (hcg g.c).mp (by simp [vmemB]))

theorem deg_splitFaces_other {x y m : ℕ} (hne : x ≠ y) {e' : ℕ × ℕ}
    (hm1 : e'.1 ≠ m) (hm2 : e'.2 ≠ m)
    (hdiff : ¬((e'.1 = x ∧ e'.2 = y) ∨ (e'.1 = y ∧ e'.2 = x))) (hne' : e'.1 ≠ e'.2) :
    ∀ fs : List Face, (∀ f ∈ fs, triOKf f) → (∀ f ∈ fs, vmemB m f = false) →
      deg (splitFaces fs (x, y) m) e' = deg fs e' := by
  intro fs
  induction fs with
  | nil => intro _ _; rfl
  | cons f fs ih =>
    intro htri hm
    unfold splitFaces deg
    rw [List.flatMap_cons, List.countP_append]
    have hbranch : List.countP (hasEdge e')
        (if hasEdge (x, y) f then
          [Face.mk (x, y).1 m (third (x, y) f), Face.mk m (x, y).2 (third (x, y) f)]
         else [f]) = List.countP (hasEdge e') [f] := by
      by_cases hf : hasEdge (x, y) f = true
      · rw [if_pos hf]
        exact split_face_count_other (htri f (by simp)) hf hne (hm f (by simp)) hm1 hm2
          hdiff hne'
      · rw [if_neg (by simp [hf])]
    rw [hbranch]
    have htail := ih (fun g hg => htri g (List.mem_cons_of_mem f hg))
      (fun g hg => hm g (List.mem_cons_of_mem f hg))
    unfold splitFaces deg at htail
    rw [htail]
    simp [List.countP_cons]
    omega

theorem deg_splitFaces_sub {x y m : ℕ} (hne : x ≠ y) :
    ∀ fs : List Face, (∀ f ∈ fs, triOKf f) → (∀ f ∈ fs, vmemB m f = false) →
      deg (splitFaces fs (x, y) m) (x, m) = deg fs (x, y) ∧
      deg (splitFaces fs (x, y) m) (m, y) = deg fs (x, y) := by
  intro fs
  induction fs with
  | nil => intro _ _; exact ⟨rfl, rfl⟩
  | cons f fs ih =>
    intro htri hm
    obtain ⟨ih1, ih2⟩ := ih (fun g hg => htri g (List.mem_cons_of_mem f hg))
      (fun g hg => hm g (List.mem_cons_of_mem f hg))
    unfold splitFaces deg at ih1 ih2 ⊢
    rw [List.flatMap_cons, List.countP_append, List.countP_append, ih1, ih2]
    have hmf := hm f (by simp)
    by_cases hf : hasEdge (x, y) f = true
    · obtain ⟨hc1, hc2, hcmem, hchar⟩ := face_shape (htri f (by simp)) hf hne
      have hmm : ¬ (m = x ∨ m = y ∨ m = third (x, y) f) := fun h => by
        rw [(hchar m).mpr h] at hmf
        exact Bool.noConfusion hmf
      push_neg at hmm
      obtain ⟨hmx, hmy, hmc⟩ := hmm
      rw [if_pos hf]
      constructor
      · have e1 : hasEdge (x, m) (Face.mk (x, y).1 m (third (x, y) f)) = true := by
          simp [hasEdge, vmemB]
        have e2 : hasEdge (x, m) (Face.mk m (x, y).2 (third (x, y) f)) = true ↔
            (x = m ∨ x = y ∨ x = third (x, y) f) ∧
            (m = m ∨ m = y ∨ m = third (x, y) f) := hasEdge_iff
        have e2f : hasEdge (x, m) (Face.mk m (x, y).2 (third (x, y) f)) = false := by
          rw [Bool.eq_false_iff]
          intro h
          rcases (e2.mp h).1 with h' | h' | h'
          · exact hmx h'.symm
          · exact hne h'
          · exact hc1 h'.symm
        simp [List.countP_cons, e1, e2f, List.countP_nil, hf]
        omega
      · have e1 : hasEdge (m, y) (Face.mk m (x, y).2 (third (x, y) f)) = true := by
          simp [hasEdge, vmemB]
        have e2 : hasEdge (m, y) (Face.mk (x, y).1 m (third (x, y) f)) = true ↔
            (m = x ∨ m = m ∨ m = third (x, y) f) ∧
            (y = x ∨ y = m ∨ y = third (x, y) f) := hasEdge_iff
        have e2f : hasEdge (m, y) (Face.mk (x, y).1 m (third (x, y) f)) = false := by
          rw [Bool.eq_false_iff]
          intro h
          rcases (e2.mp h).2 with h' | h' | h'
          · exact hne h'.symm
          · exact hmy h'.symm
          · exact hc2 h'.symm
        simp [List.countP_cons, e1, e2f, List.countP_nil, hf]
        omega
    · rw [if_neg (by simp [hf])]
      have hx : hasEdge (x, m) f = false := by
        rw [Bool.eq_false_iff]
        intro h
        rw [show hasEdge (x, m) f = (vmemB x f && vmemB m f) from rfl, hmf] at h
        simp at h
      have hy : hasEdge (m, y) f = false := by
        rw [Bool.eq_false_iff]
        intro h
        rw [show hasEdge (m, y) f = (vmemB m f && vmemB y f) from rfl, hmf] at h
        simp at h
      have hf' : hasEdge (x, y) f = false := by
        rw [Bool.eq_false_iff]
        exact hf
      simp [List.countP_cons, hx, hy, hf', List.countP_nil]

theorem deg_splitFaces_mc {x y m c0 : ℕ} (hne : x ≠ y) (h0x : c0 ≠ x) (h0y : c0 ≠ y)
    (h0m : c0 ≠ m) :
    ∀ fs : List Face, (∀ f ∈ fs, vmemB m f = false) →
      deg (splitFaces fs (x, y) m) (m, c0) =
        2 * fs.countP fun f => hasEdge (x, y) f && (third (x, y) f == c0) := by
  intro fs
  induction fs with
  | nil => intro _; rfl
  | cons f fs ih =>
    intro hm
    have htail := ih fun g hg => hm g (List.mem_cons_of_mem f hg)
    unfold splitFaces deg at htail ⊢
    rw [List.flatMap_cons, List.countP_append, htail, List.countP_cons]
    by_cases hf : hasEdge (x, y) f = true
    · rw [if_pos hf]
      by_cases h3 : third (x, y) f = c0
      · rw [h3]
        have e1 : hasEdge (m, c0) (Face.mk (x, y).1 m c0) = true := by
          rw [hasEdge_iff]
          exact ⟨Or.inr (Or.inl rfl), Or.inr (Or.inr rfl)⟩
        have e2 : hasEdge (m, c0) (Face.mk m (x, y).2 c0) = true := by
          rw [hasEdge_iff]
          exact ⟨Or.inl rfl, Or.inr (Or.inr rfl)⟩
        simp [hf, e1, e2, List.countP_cons]
        omega
      · have e1 : hasEdge (m, c0) (Face.mk (x, y).1 m (third (x, y) f)) = false := by
          rw [Bool.eq_false_iff]
          intro h
          rcases (hasEdge_iff.mp h).2 with h' | h' | h'
          · exact h0x h'
          · exact h0m h'
          · exact h3 h'.symm
        have e2 : hasEdge (m, c0) (Face.mk m (x, y).2 (third (x, y) f)) = false := by
          rw [Bool.eq_false_iff]
          intro h
          rcases (hasEdge_iff.mp h).2 with h' | h' | h'
          · exact h0m h'
          · exact h0y h'
          · exact h3 h'.symm
        have hq : (hasEdge (x, y) f && (third (x, y) f == c0)) = false := by
          rw [hf]
          simp [h3]
        simp [e1, e2, hq, List.countP_cons]
    · have e0 : hasEdge (m, c0) f = false := by
        rw [Bool.eq_false_iff]
        intro h
        rw [show hasEdge (m, c0) f = (vmemB m f && vmemB c0 f) from rfl,
          hm f (by simp)] at h
        simp at h
      simp [hf, e0, List.countP_cons]

theorem deg_splitFaces_mc_le {x y m : ℕ} {fs : List Face} (hv : validMesh fs)
    (hne : x ≠ y) (hm : ∀ f ∈ fs, vmemB m f = false) {f0 : Face} (hf0 : f0 ∈ fs)
    (h0 : hasEdge (x, y) f0 = true) :
    deg (splitFaces fs (x, y) m) (m, third (x, y) f0) ≤ 2 := by
  obtain ⟨hc1, hc2, hcmem, _⟩ := face_shape (hv.1 f0 hf0) h0 hne
  have h0m : third (x, y) f0 ≠ m := by
    intro h
    rw [h, hm f0 hf0] at hcmem
    exact Bool.noConfusion hcmem
  rw [deg_splitFaces_mc hne hc1 hc2 h0m fs hm]
  have hb : fs.countP (fun f => hasEdge (x, y) f && (third (x, y) f == third (x, y) f0)) ≤ 1 := by
    refine countP_le_one_of_pairwise hv.2.1 ?_
    intro a ha b hb hpa hpb hns
    rcases Bool.and_eq_true_iff.1 hpa with ⟨ha1, ha2⟩
    rcases Bool.and_eq_true_iff.1 hpb with ⟨hb1, hb2⟩
    rw [beq_iff_eq] at ha2 hb2
    exact hns (sameVerts_of_same_third (hv.1 a ha) (hv.1 b hb) ha1 hb1 hne (by rw [ha2, hb2]))
  omega

theorem m_not_xyc {f : Face} {x y m : ℕ} (htri : triOKf f) (he : hasEdge (x, y) f = true)
    (hne : x ≠ y) (hm : vmemB m f = false) :
    m ≠ x ∧ m ≠ y ∧ m ≠ third (x, y) f := by
  obtain ⟨_, _, _, hchar⟩ := face_shape htri he hne
  have hmm : ¬ (m = x ∨ m = y ∨ m = third (x, y) f) := fun h => by
    rw [(hchar m).mpr h] at hm
    exact Bool.noConfusion hm
  push_neg at hmm
  exact hmm

theorem triOK_splitFaces {fs : List Face} {x y m : ℕ}
    (htri : ∀ f ∈ fs, triOKf f) (hne : x ≠ y) (hm : ∀ f ∈ fs, vmemB m f = false) :
    ∀ f' ∈ splitFaces fs (x, y) m, triOKf f' := by
  intro f' hf'
  rw [splitFaces, List.mem_flatMap] at hf'
  obtain ⟨f, hf, hmem⟩ := hf'
  by_cases he : hasEdge (x, y) f = true
  · rw [if_pos he] at hmem
    obtain ⟨hc1, hc2, hcmem, hchar⟩ := face_shape (htri f hf) he hne
    obtain ⟨hmx, hmy, hmc⟩ := m_not_xyc (htri f hf) he hne (hm f hf)
    rcases List.mem_cons.1 hmem with rfl | hmem
    · exact ⟨Ne.symm hmx, hmc, Ne.symm hc1⟩
    · rw [List.mem_singleton] at hmem
      subst hmem
      exact ⟨hmy, Ne.symm hc2, hmc⟩
  · rw [if_neg (by simp [he])] at hmem
    rw [List.mem_singleton] at hmem
    rw [hmem]
    exact htri f hf

theorem pairwise_splitFaces {fs : List Face} {x y m : ℕ}
    (htri : ∀ f ∈ fs, triOKf f)
    (hpair : List.Pairwise (fun f g => ¬ sameVerts f g) fs)
    (hne : x ≠ y) (hm : ∀ f ∈ fs, vmemB m f = false) :
    List.Pairwise (fun f g => ¬ sameVerts f g) (splitFaces fs (x, y) m) := by
  rw [splitFaces]
  apply pairwise_flatMap
  · intro f hf
    by_cases he : hasEdge (x, y) f = true
    · rw [if_pos he]
      obtain ⟨hc1, hc2, hcmem, hchar⟩ := face_shape (htri f hf) he hne
      obtain ⟨hmx, hmy, hmc⟩ := m_not_xyc (htri f hf) he hne (hm f hf)
      refine List.pairwise_cons.2 ⟨?_, by simp⟩
      intro g hg
      rcases List.mem_singleton.1 hg with rfl
      refine not_sameVerts (v := (x, y).1) (by simp [vmemB]) ?_
      simp only [vmemB]
      have h1 : (x == m) = false := by simp [Ne.symm hmx]
      have h2 : (x == (x, y).2) = false := by simp [hne]
      have h3 : (x == third (x, y) f) = false := by simp [Ne.symm hc1]
      simp [h1, h2, h3]
    · rw [if_neg (by simp [he])]
      simp
  · refine hpair.imp_of_mem ?_
    intro f g hfm hgm hfg
    intro u hu v hv
    by_cases hef : hasEdge (x, y) f = true <;> by_cases heg : hasEdge (x, y) g = true
    · rw [if_pos hef] at hu
      rw [if_pos heg] at hv
      obtain ⟨hcf1, hcf2, hcfmem, hcharf⟩ := face_shape (htri f hfm) hef hne
      obtain ⟨hcg1, hcg2, hcgmem, hcharg⟩ := face_shape (htri g hgm) heg hne
      obtain ⟨hmxf, hmyf, hmcf⟩ := m_not_xyc (htri f hfm) hef hne (hm f hfm)
      obtain ⟨hmxg, hmyg, hmcg⟩ := m_not_xyc (htri g hgm) heg hne (hm g hgm)
      have hcd : third (x, y) f ≠ third (x, y) g := fun h =>
        hfg (sameVerts_of_same_third (htri f hfm) (htri g hgm) hef heg hne h)
      have hufmem : vmemB (third (x, y) f) u = true := by
        rcases List.mem_cons.1 hu with rfl | hu
        · simp [vmemB]
        · rw [List.mem_singleton] at hu
          subst hu
          simp [vmemB]
      have hvnot : vmemB (third (x, y) f) v = false := by
        have e1 : (third (x, y) f == (x, y).1) = false := by simp [hcf1]
        have e2 : (third (x, y) f == (x, y).2) = false := by simp [hcf2]
        have e3 : (third (x, y) f == m) = false := by simp [Ne.symm hmcf]
        have e4 : (third (x, y) f == third (x, y) g) = false := by simp [hcd]
        rcases List.mem_cons.1 hv with rfl | hv
        · simp [vmemB, e1, e3, e4]
        · rw [List.mem_singleton] at hv
          subst hv
          simp [vmemB, e2, e3, e4]
      exact not_sameVerts hufmem hvnot
    · rw [if_pos hef] at hu
      rw [if_neg (by simp [heg])] at hv
      rw [List.mem_singleton] at hv
      have humem : vmemB m u = true := by
        rcases List.mem_cons.1 hu with rfl | hu
        · simp [vmemB]
        · rw [List.mem_singleton] at hu
          subst hu
          simp [vmemB]
      rw [hv]
      exact not_sameVerts humem (hm g hgm)
    · rw [if_neg (by simp [hef])] at hu
      rw [if_pos heg] at hv
      rw [List.mem_singleton] at hu
      have hvmem : vmemB m v = true := by
        rcases List.mem_cons.1 hv with rfl | hv
        · simp [vmemB]
        · rw [List.mem_singleton] at hv
          subst hv
          simp [vmemB]
      rw [hu]
      exact fun hs => not_sameVerts hvmem (hm f hfm) (sameVerts_symm hs)
    · rw [if_neg (by simp [hef])] at hu
      rw [if_neg (by simp [heg])] at hv
      rw [List.mem_singleton] at hu hv
      rw [hu, hv]
      exact hfg

theorem degLE_splitFaces {fs : List Face} {x y m : ℕ} (hv : validMesh fs)
    (hne : x ≠ y) (hm : ∀ f ∈ fs, vmemB m f = false) :
    ∀ f' ∈ splitFaces fs (x, y) m, ∀ d ∈ faceEdges f',
      deg (splitFaces fs (x, y) m) d ≤ 2 := by
  intro f' hf' d hd
  have htri' := triOK_splitFaces hv.1 hne hm f' hf'
  obtain ⟨hdne, hd1, hd2⟩ := faceEdges_spec htri' hd
  rw [splitFaces, List.mem_flatMap] at hf'
  obtain ⟨f, hf, hmem⟩ := hf'
  have hOther : ∀ p q : ℕ, vmemB p f = true → vmemB q f = true → p ≠ q →
      ¬((p = x ∧ q = y) ∨ (p = y ∧ q = x)) →
      deg (splitFaces fs (x, y) m) (p, q) ≤ 2 := by
    intro p q hp hq hpq hpqdiff
    have hpm : p ≠ m := fun h => by
      rw [h, hm f hf] at hp
      exact Bool.noConfusion hp
    have hqm : q ≠ m := fun h => by
      rw [h, hm f hf] at hq
      exact Bool.noConfusion hq
    rw [deg_splitFaces_other hne hpm hqm hpqdiff hpq fs hv.1 hm]
    exact validMesh_deg_le hv hf hp hq hpq
  have hdeta : d = (d.1, d.2) := rfl
  by_cases he : hasEdge (x, y) f = true
  · obtain ⟨hxf, hyf⟩ := Bool.and_eq_true_iff.1 he
    obtain ⟨hc1, hc2, hcmem, hchar⟩ := face_shape (hv.1 f hf) he hne
    obtain ⟨hmx, hmy, hmc⟩ := m_not_xyc (hv.1 f hf) he hne (hm f hf)
    have hsub := deg_splitFaces_sub hne fs hv.1 hm
    have hbxy : deg fs (x, y) ≤ 2 := validMesh_deg_le hv hf hxf hyf hne
    have hmcle : deg (splitFaces fs (x, y) m) (m, third (x, y) f) ≤ 2 :=
      deg_splitFaces_mc_le hv hne hm hf he
    rw [if_pos he] at hmem
    rw [hdeta]
    rcases List.mem_cons.1 hmem with rfl | hmem
    · -- f' is the first sub-face ⟨x, m, third⟩
      rcases vmemB_iff.1 hd1 with h1 | h1 | h1 <;> rcases vmemB_iff.1 hd2 with h2 | h2 | h2 <;>
        simp only at h1 h2 <;> rw [h1, h2]
      · exact absurd (h1.trans h2.symm) hdne
      · rw [hsub.1]
        exact hbxy
      · exact hOther x (third (x, y) f) hxf hcmem (Ne.symm hc1)
          (by rintro (⟨-, h⟩ | ⟨h, -⟩) <;> [exact hc2 h; exact hne h])
      · rw [deg_swap, hsub.1]
        exact hbxy
      · exact absurd (h1.trans h2.symm) hdne
      · exact hmcle
      · exact hOther (third (x, y) f) x hcmem hxf hc1
          (by rintro (⟨h, -⟩ | ⟨h, -⟩) <;> [exact hc1 h; exact hc2 h])
      · rw [deg_swap]
        exact hmcle
      · exact absurd (h1.trans h2.symm) hdne
    · rw [List.mem_singleton] at hmem
      subst hmem
      -- f' is the second sub-face ⟨m, y, third⟩
      rcases vmemB_iff.1 hd1 with h1 | h1 | h1 <;> rcases vmemB_iff.1 hd2 with h2 | h2 | h2 <;>
        simp only at h1 h2 <;> rw [h1, h2]
      · exact absurd (h1.trans h2.symm) hdne
      · rw [hsub.2]
        exact hbxy
      · exact hmcle
      · rw [deg_swap, hsub.2]
        exact hbxy
      · exact absurd (h1.trans h2.symm) hdne
      · exact hOther y (third (x, y) f) hyf hcmem (Ne.symm hc2)
          (by rintro (⟨h, -⟩ | ⟨-, h⟩) <;> [exact hne h.symm; exact hc1 h])
      · rw [deg_swap]
        exact hmcle
      · exact hOther (third (x, y) f) y hcmem hyf hc2
          (by rintro (⟨h, -⟩ | ⟨h, -⟩) <;> [exact hc1 h; exact hc2 h])
      · exact absurd (h1.trans h2.symm) hdne
  · rw [if_neg (by simp [he]), List.mem_singleton] at hmem
    subst hmem
    rw [hdeta]
    refine hOther d.1 d.2 hd1 hd2 hdne ?_
    rintro (⟨h1, h2⟩ | ⟨h1, h2⟩)
    · rw [h1] at hd1
      rw [h2] at hd2
      rw [show hasEdge (x, y) f' = (vmemB x f' && vmemB y f') from rfl, hd1, hd2] at he
      exact he rfl
    · rw [h1] at hd1
      rw [h2] at hd2
      rw [show hasEdge (x, y) f' = (vmemB x f' && vmemB y f') from rfl, hd2, hd1] at he
      exact he rfl

/-- `splitFaces` preserves the simplicial manifold invariant. -/
theorem validMesh_splitFaces {fs : List Face} {x y m : ℕ} (hv : validMesh fs)
    (hne : x ≠ y) (hm : ∀ f ∈ fs, vmemB m f = false) :
    validMesh (splitFaces fs (x, y) m) :=
  ⟨triOK_splitFaces hv.1 hne hm, pairwise_splitFaces hv.1 hv.2.1 hne hm,
   degLE_splitFaces hv hne hm⟩

theorem countP_filter_partition {α : Type} (p q : α → Bool) (l : List α) :
    l.countP p = (l.filter q).countP p + (l.filter fun a => !q a).countP p := by
  induction l with
  | nil => rfl
  | cons a l ih =>
    rw [List.countP_cons, List.filter_cons, List.filter_cons]
    cases hq : q a <;> simp [hq, List.countP_cons, ih] <;> omega

theorem mem_of_filter_pair {α : Type} {p : α → Bool} {l : List α} {f g : α}
    (h : l.filter p = [f, g]) : f ∈ l ∧ g ∈ l ∧ p f = true ∧ p g = true := by
  have hf : f ∈ l.filter p := by rw [h]; simp
  have hg : g ∈ l.filter p := by rw [h]; simp
  exact ⟨List.mem_of_mem_filter hf, List.mem_of_mem_filter hg,
    List.of_mem_filter hf, List.of_mem_filter hg⟩

set_option maxHeartbeats 4000000 in
theorem validMesh_flipFaces {fs : List Face} {e : ℕ × ℕ} {f g : Face}
    (hv : validMesh fs) (hne : e.1 ≠ e.2)
    (hfg : fs.filter (hasEdge e) = [f, g])
    (hcd : third e f ≠ third e g)
    (hnocd : deg fs (und (third e f) (third e g)) = 0) :
    validMesh (flipFaces fs e (third e f) (third e g)) := by
  obtain ⟨hfm, hgm, hef, heg⟩ := mem_of_filter_pair hfg
  have hef' : hasEdge (e.1, e.2) f = true := hef
  have heg' : hasEdge (e.1, e.2) g = true := heg
  obtain ⟨hcx, hcy, hcmem, hcharf⟩ := face_shape (hv.1 f hfm) hef' hne
  obtain ⟨hdx, hdy, hdmem, hcharg⟩ := face_shape (hv.1 g hgm) heg' hne
  set c := third e f with hcdef
  set d := third e g with hddef
  have hx1 : vmemB e.1 f = true := by
    rw [(hcharf e.1)]
    exact Or.inl rfl
  have hx2 : vmemB e.2 f = true := by
    rw [(hcharf e.2)]
    exact Or.inr (Or.inl rfl)
  have hy1 : vmemB e.1 g = true := by
    rw [(hcharg e.1)]
    exact Or.inl rfl
  have hy2 : vmemB e.2 g = true := by
    rw [(hcharg e.2)]
    exact Or.inr (Or.inl rfl)
  have hnocd' : deg fs (c, d) = 0 := by
    rw [← deg_und]
    exact hnocd
  -- the new faces and the retained faces
  have hpart : ∀ p q : ℕ, deg fs (p, q) =
      List.countP (hasEdge (p, q)) [f, g] +
      deg (fs.filter fun h => !hasEdge e h) (p, q) := by
    intro p q
    unfold deg
    rw [countP_filter_partition (hasEdge (p, q)) (hasEdge e) fs, hfg]
  have hflip : ∀ p q : ℕ, deg (flipFaces fs e c d) (p, q) =
      List.countP (hasEdge (p, q)) [Face.mk e.1 c d, Face.mk e.2 c d] +
      deg (fs.filter fun h => !hasEdge e h) (p, q) := by
    intro p q
    unfold flipFaces deg
    simp only [List.countP_cons, List.countP_nil]
    omega
  -- triangle condition
  have htriK : ∀ f' ∈ flipFaces fs e c d, triOKf f' := by
    intro f' hf'
    rcases List.mem_cons.1 hf' with rfl | hf'
    · exact ⟨Ne.symm hcx, hcd, Ne.symm hdx⟩
    · rcases List.mem_cons.1 hf' with rfl | hf'
      · exact ⟨Ne.symm hcy, hcd, Ne.symm hdy⟩
      · exact hv.1 f' (List.mem_of_mem_filter hf')
  -- pairwise distinct vertex sets
  have hrest_nocd : ∀ h ∈ fs, ¬ (vmemB c h = true ∧ vmemB d h = true) := by
    intro h hh ⟨hch, hdh⟩
    have : 0 < deg fs (c, d) := by
      rw [deg]
      rw [List.countP_pos]
      exact ⟨h, hh, by rw [show hasEdge (c, d) h = (vmemB c h && vmemB d h) from rfl, hch, hdh]; rfl⟩
    omega
  have hpairK : List.Pairwise (fun f' g' => ¬ sameVerts f' g') (flipFaces fs e c d) := by
    refine List.pairwise_cons.2 ⟨?_, List.pairwise_cons.2 ⟨?_, ?_⟩⟩
    · intro g' hg'
      rcases List.mem_cons.1 hg' with rfl | hg'
      · refine not_sameVerts (v := e.1) (by simp [vmemB]) ?_
        have h1 : (e.1 == e.2) = false := by simp [hne]
        have h2 : (e.1 == c) = false := by simp [Ne.symm hcx]
        have h3 : (e.1 == d) = false := by simp [Ne.symm hdx]
        simp [vmemB, h1, h2, h3]
      · intro hs
        have hch := sameVerts_mem hs (v := c) (by simp [vmemB])
        have hdh := sameVerts_mem hs (v := d) (by simp [vmemB])
        exact hrest_nocd g' (List.mem_of_mem_filter hg') ⟨hch, hdh⟩
    · intro g' hg'
      intro hs
      have hch := sameVerts_mem hs (v := c) (by simp [vmemB])
      have hdh := sameVerts_mem hs (v := d) (by simp [vmemB])
      exact hrest_nocd g' (List.mem_of_mem_filter hg') ⟨hch, hdh⟩
    · exact (hv.2.1).sublist (List.filter_sublist fs)
  -- degree bound
  have key : ∀ p q : ℕ, p ≠ q → deg fs (p, q) ≤ 2 →
      ¬(p = c ∧ q = d) → ¬(p = d ∧ q = c) →
      deg (flipFaces fs e c d) (p, q) ≤ 2 := by
    intro p q hpq hbound hex1 hex2
    have hEq : deg (flipFaces fs e c d) (p, q) +
        List.countP (hasEdge (p, q)) [f, g] =
        deg fs (p, q) +
        List.countP (hasEdge (p, q)) [Face.mk e.1 c d, Face.mk e.2 c d] := by
      rw [hflip p q, hpart p q]
      omega
    have iN1 : hasEdge (p, q) (Face.mk e.1 c d) = true ↔
        (p = e.1 ∨ p = c ∨ p = d) ∧ (q = e.1 ∨ q = c ∨ q = d) := hasEdge_iff
    have iN2 : hasEdge (p, q) (Face.mk e.2 c d) = true ↔
        (p = e.2 ∨ p = c ∨ p = d) ∧ (q = e.2 ∨ q = c ∨ q = d) := hasEdge_iff
    have iF : hasEdge (p, q) f = true ↔
        (p = e.1 ∨ p = e.2 ∨ p = c) ∧ (q = e.1 ∨ q = e.2 ∨ q = c) := by
      rw [show hasEdge (p, q) f = (vmemB p f && vmemB q f) from rfl, Bool.and_eq_true,
        hcharf p, hcharf q]
    have iG : hasEdge (p, q) g = true ↔
        (p = e.1 ∨ p = e.2 ∨ p = d) ∧ (q = e.1 ∨ q = e.2 ∨ q = d) := by
      rw [show hasEdge (p, q) g = (vmemB p g && vmemB q g) from rfl, Bool.and_eq_true,
        hcharg p, hcharg q]
    simp only [List.countP_cons, List.countP_nil, iN1, iN2, iF, iG] at hEq
    clear hflip hpart iN1 iN2 iF iG hcharf hcharg hrest_nocd htriK hpairK
    clear hx1 hx2 hy1 hy2 hcmem hdmem hef heg hef' heg' hfg
    by_cases p1 : (p = e.1 ∨ p = c ∨ p = d) ∧ (q = e.1 ∨ q = c ∨ q = d) <;>
    by_cases p2 : (p = e.2 ∨ p = c ∨ p = d) ∧ (q = e.2 ∨ q = c ∨ q = d) <;>
    by_cases pf : (p = e.1 ∨ p = e.2 ∨ p = c) ∧ (q = e.1 ∨ q = e.2 ∨ q = c) <;>
    by_cases pg : (p = e.1 ∨ p = e.2 ∨ p = d) ∧ (q = e.1 ∨ q = e.2 ∨ q = d) <;>
      simp only [p1, p2, pf, pg, if_true, if_false] at hEq <;>
      omega
  have hdiag : deg (flipFaces fs e c d) (c, d) ≤ 2 := by
    have hn1 : hasEdge (c, d) (Face.mk e.1 c d) = true := by
      rw [hasEdge_iff]
      exact ⟨Or.inr (Or.inl rfl), Or.inr (Or.inr rfl)⟩
    have hn2 : hasEdge (c, d) (Face.mk e.2 c d) = true := by
      rw [hasEdge_iff]
      exact ⟨Or.inr (Or.inl rfl), Or.inr (Or.inr rfl)⟩
    have hcf : hasEdge (c, d) f = false := by
      rw [Bool.eq_false_iff]
      intro h
      rw [show hasEdge (c, d) f = (vmemB c f && vmemB d f) from rfl,
        Bool.and_eq_true] at h
      rw [hcharf d] at h
      rcases h.2 with h' | h' | h'
      · exact hdx h'
      · exact hdy h'
      · exact hcd h'.symm
    have hcg : hasEdge (c, d) g = false := by
      rw [Bool.eq_false_iff]
      intro h
      rw [show hasEdge (c, d) g = (vmemB c g && vmemB d g) from rfl,
        Bool.and_eq_true] at h
      rw [hcharg c] at h
      rcases h.1 with h' | h' | h'
      · exact hcx h'
      · exact hcy h'
      · exact hcd h'
    rw [hflip c d]
    have hz : deg (fs.filter fun h => !hasEdge e h) (c, d) = 0 := by
      have hp := hpart c d
      simp only [List.countP_cons, List.countP_nil, hcf, hcg] at hp
      omega
    simp [List.countP_cons, hn1, hn2, hz]
  have hdegK : ∀ f' ∈ flipFaces fs e c d, ∀ d' ∈ faceEdges f',
      deg (flipFaces fs e c d) d' ≤ 2 := by
    intro f' hf' d' hd'
    obtain ⟨hdne, hp1, hp2⟩ := faceEdges_spec (htriK f' hf') hd'
    have hdeta : d' = (d'.1, d'.2) := rfl
    rw [hdeta]
    rcases List.mem_cons.1 hf' with rfl | hf'
    · -- first new face ⟨e.1, c, d⟩
      rcases vmemB_iff.1 hp1 with h1 | h1 | h1 <;> rcases vmemB_iff.1 hp2 with h2 | h2 | h2 <;>
        simp only at h1 h2 <;> rw [h1, h2]
      · exact absurd (h1.trans h2.symm) hdne
      · exact key e.1 c (Ne.symm hcx) (validMesh_deg_le hv hfm hx1 hcmem (Ne.symm hcx))
          (by rintro ⟨h, -⟩; exact hcx h.symm) (by rintro ⟨h, -⟩; exact hdx h.symm)
      · exact key e.1 d (Ne.symm hdx) (validMesh_deg_le hv hgm hy1 hdmem (Ne.symm hdx))
          (by rintro ⟨h, -⟩; exact hcx h.symm) (by rintro ⟨h, -⟩; exact hdx h.symm)
      · exact key c e.1 hcx (validMesh_deg_le hv hfm hcmem hx1 hcx)
          (by rintro ⟨-, h⟩; exact hdx h.symm) (by rintro ⟨h, -⟩; exact hcd h)
      · exact absurd (h1.trans h2.symm) hdne
      · exact hdiag
      · exact key d e.1 hdx (validMesh_deg_le hv hgm hdmem hy1 hdx)
          (by rintro ⟨h, -⟩; exact hcd h.symm) (by rintro ⟨-, h⟩; exact hcx h.symm)
      · rw [deg_swap]
        exact hdiag
      · exact absurd (h1.trans h2.symm) hdne
    · rcases List.mem_cons.1 hf' with rfl | hf'
      · -- second new face ⟨e.2, c, d⟩
        rcases vmemB_iff.1 hp1 with h1 | h1 | h1 <;>
          rcases vmemB_iff.1 hp2 with h2 | h2 | h2 <;>
          simp only at h1 h2 <;> rw [h1, h2]
        · exact absurd (h1.trans h2.symm) hdne
        · exact key e.2 c (Ne.symm hcy) (validMesh_deg_le hv hfm hx2 hcmem (Ne.symm hcy))
            (by rintro ⟨h, -⟩; exact hcy h.symm) (by rintro ⟨h, -⟩; exact hdy h.symm)
        · exact key e.2 d (Ne.symm hdy) (validMesh_deg_le hv hgm hy2 hdmem (Ne.symm hdy))
            (by rintro ⟨h, -⟩; exact hcy h.symm) (by rintro ⟨h, -⟩; exact hdy h.symm)
        · exact key c e.2 hcy (validMesh_deg_le hv hfm hcmem hx2 hcy)
            (by rintro ⟨-, h⟩; exact hdy h.symm) (by rintro ⟨h, -⟩; exact hcd h)
        · exact absurd (h1.trans h2.symm) hdne
        · exact hdiag
        · exact key d e.2 hdy (validMesh_deg_le hv hgm hdmem hy2 hdy)
            (by rintro ⟨h, -⟩; exact hcd h.symm) (by rintro ⟨-, h⟩; exact hcy h.symm)
        · rw [deg_swap]
          exact hdiag
        · exact absurd (h1.trans h2.symm) hdne
      · -- retained face
        refine key d'.1 d'.2 hdne ?_ ?_ ?_
        · exact validMesh_deg_le hv (List.mem_of_mem_filter hf') hp1 hp2 hdne
        · rintro ⟨h1, h2⟩
          rw [h1] at hp1
          rw [h2] at hp2
          exact hrest_nocd f' (List.mem_of_mem_filter hf') ⟨hp1, hp2⟩
        · rintro ⟨h1, h2⟩
          rw [h1] at hp1
          rw [h2] at hp2
          exact hrest_nocd f' (List.mem_of_mem_filter hf') ⟨hp2, hp1⟩
  exact ⟨htriK, hpairK, hdegK⟩

/-! ## Stage-level preservation of the manifold invariant -/

theorem validMesh_splitEdge {st : RState} {e : ℕ × ℕ} (hv : validMesh st.faces)
    (hne : e.1 ≠ e.2) : validMesh (splitEdge st e).faces := by
  show validMesh (splitFaces st.faces e (freshVert st.faces))
  have h : validMesh (splitFaces st.faces (e.1, e.2) (freshVert st.faces)) :=
    validMesh_splitFaces hv hne fun f hf => vmemB_fresh hf
  exact h

theorem validMesh_splitLoop {protect : Bool} {high : ℚ} :
    ∀ (fuel : ℕ) (wl : List (ℕ × ℕ)) (st : RState), validMesh st.faces →
      validMesh (splitLoop protect high fuel wl st).faces := by
  intro fuel
  induction fuel with
  | zero => intro wl st hv; exact hv
  | succ n ih =>
    intro wl st hv
    cases wl with
    | nil => exact hv
    | cons e wl =>
      rw [splitLoop]
      split
      · rename_i hcond
        have hne : e.1 ≠ e.2 := by
          rcases Bool.and_eq_true_iff.1 hcond with ⟨hsp, -⟩
          rcases Bool.and_eq_true_iff.1 (Bool.and_eq_true_iff.1 hsp).1 with ⟨-, hne'⟩
          exact bne_iff_ne.1 hne'
        exact ih _ _ (validMesh_splitEdge hv hne)
      · exact ih _ _ hv

theorem collapseAllowed_validMesh {protect cc : Bool} {high : ℚ} {st : RState}
    {e : ℕ × ℕ} (h : collapseAllowed protect cc high st e = true) :
    validMesh (collapseFaces st.faces e.1 e.2) := by
  unfold collapseAllowed at h
  simp only [Bool.and_eq_true, decide_eq_true_eq] at h
  exact h.1.2

theorem validMesh_collapseStep {protect cc : Bool} {low high : ℚ} {st : RState}
    {e : ℕ × ℕ} (hv : validMesh st.faces) :
    validMesh (collapseStep protect cc low high st e).faces := by
  unfold collapseStep
  split
  · rename_i hcond
    rcases Bool.and_eq_true_iff.1 hcond with ⟨-, hallow⟩
    exact collapseAllowed_validMesh hallow
  · exact hv

theorem validMesh_foldl {f : RState → (ℕ × ℕ) → RState}
    (hstep : ∀ st e, validMesh st.faces → validMesh (f st e).faces) :
    ∀ (l : List (ℕ × ℕ)) (st : RState), validMesh st.faces →
      validMesh (l.foldl f st).faces := by
  intro l
  induction l with
  | nil => intro st hv; exact hv
  | cons e l ih => intro st hv; exact ih _ (hstep st e hv)

theorem flipInfo_some {fs : List Face} {e : ℕ × ℕ} {c d : ℕ}
    (h : flipInfo fs e = some (c, d)) :
    ∃ f g, fs.filter (hasEdge e) = [f, g] ∧ c = third e f ∧ d = third e g := by
  unfold flipInfo at h
  split at h
  · rename_i f g heq
    injection h with h'
    injection h' with h1 h2
    exact ⟨f, g, heq, h1.symm, h2.symm⟩
  · exact Option.noConfusion h

theorem validMesh_equalizeStep {st : RState} {e : ℕ × ℕ} (hv : validMesh st.faces) :
    validMesh (equalizeStep st e).faces := by
  unfold equalizeStep
  split
  · rename_i c d heq
    obtain ⟨f, g, hfg, hc, hd⟩ := flipInfo_some heq
    split
    · rename_i hcond
      rcases Bool.and_eq_true_iff.1 hcond with ⟨hallow, -⟩
      unfold flipAllowed at hallow
      simp only [Bool.and_eq_true, bne_iff_ne, beq_iff_eq] at hallow
      obtain ⟨⟨⟨hne, -⟩, hcd⟩, hnocd⟩ := hallow
      subst hc
      subst hd
      exact validMesh_flipFaces hv hne hfg hcd hnocd
    · exact hv
  · exact hv

theorem validMesh_flipEdge {st : RState} {e : ℕ × ℕ} (hv : validMesh st.faces) :
    validMesh (flipEdge st e).faces := by
  unfold flipEdge
  split
  · rename_i c d heq
    obtain ⟨f, g, hfg, hc, hd⟩ := flipInfo_some heq
    split
    · rename_i hallow
      unfold flipAllowed at hallow
      simp only [Bool.and_eq_true, bne_iff_ne, beq_iff_eq] at hallow
      obtain ⟨⟨⟨hne, -⟩, hcd⟩, hnocd⟩ := hallow
      subst hc
      subst hd
      exact validMesh_flipFaces hv hne hfg hcd hnocd
    · exact hv
  · exact hv

theorem validMesh_equalizePass {st : RState} (hv : validMesh st.faces) :
    validMesh (equalizePass st).faces :=
  validMesh_foldl (fun _ _ => validMesh_equalizeStep) _ _ hv

theorem relaxOnce_faces (relax1d : Bool) (st : RState) :
    (relaxOnce relax1d st).faces = st.faces := rfl

theorem validMesh_relaxIter (relax1d : Bool) :
    ∀ (steps : ℕ) (st : RState), ((relaxOnce relax1d)^[steps] st).faces = st.faces := by
  intro steps
  induction steps with
  | zero => intro st; rfl
  | succ n ih =>
    intro st
    rw [Function.iterate_succ_apply, ih, relaxOnce_faces]

/-- C4: over the simplicial mesh model, every individual stage of the
pipeline — split, collapse, flip (valence equalization), tangential
relaxation, projection — takes a valid triangulated
manifold-with-boundary (every face a nondegenerate triangle, no two
faces with the same vertex set, every edge bordering at most two faces,
and mesh edges border at least one by construction) to a mesh satisfying
the same invariant. -/
theorem C4_manifold_stages (protect cc relax1d : Bool) (fuel steps : ℕ) (S : List Point)
    (low high : ℚ) (fo : Option (Point → Point)) (st : RState) (hv : validMesh st.faces) :
    validMesh ((remesherT protect fuel S).split_long_edges high st).faces ∧
    validMesh ((remesherT protect fuel S).collapse_short_edges low high cc st).faces ∧
    validMesh ((remesherT protect fuel S).equalize_valences st).faces ∧
    validMesh ((remesherT protect fuel S).tangential_relaxation relax1d steps st).faces ∧
    validMesh ((remesherT protect fuel S).project_to_surface fo st).faces := by
  refine ⟨?_, ?_, ?_, ?_, ?_⟩
  · exact validMesh_splitLoop fuel _ st hv
  · exact validMesh_foldl (fun st' e h => validMesh_collapseStep h) _ st hv
  · exact validMesh_equalizePass (validMesh_equalizePass hv)
  · show validMesh ((relaxOnce relax1d)^[steps] st).faces
    rw [validMesh_relaxIter relax1d steps st]
    exact hv
  · exact hv

/-- Witness for C4: the five stages applied to the concrete one-triangle
mesh. -/
theorem C4_manifold_stages_witness :
    validMesh demoTri.faces ∧
    (validMesh ((remesherT false 4 []).split_long_edges 10 demoTri).faces ∧
     validMesh ((remesherT false 4 []).collapse_short_edges 1 10 true demoTri).faces ∧
     validMesh ((remesherT false 4 []).equalize_valences demoTri).faces ∧
     validMesh ((remesherT false 4 []).tangential_relaxation false 1 demoTri).faces ∧
     validMesh ((remesherT false 4 []).project_to_surface none demoTri).faces) :=
  ⟨by decide, C4_manifold_stages false true false 4 1 [] 1 10 none demoTri (by decide)⟩

/-! ### Preservation of a protected constrained edge

The lemmas below track one fixed constrained edge `e` through the five
stages when the remesher was constructed with constraint protection, and
(for the relaxation stage) `relax_constraints` is off: its number of
bordering faces, its constraint flag and its endpoint positions are all
left alone, and its endpoints are never recorded as touched. -/

theorem exists_face_of_deg {fs : List Face} {e : ℕ × ℕ} (h : 1 ≤ deg fs e) :
    ∃ f ∈ fs, hasEdge e f = true := by
  rw [deg] at h
  exact List.countP_pos.1 h

theorem mem_edgesOf_of_deg {fs : List Face} {e : ℕ × ℕ} (h : 1 ≤ deg fs e)
    (hnorm : und e.1 e.2 = e) (hne : e.1 ≠ e.2) : e ∈ edgesOf fs := by
  obtain ⟨f, hf, he⟩ := exists_face_of_deg h
  have hmem := hasEdge_mem_edgesOf hf he hne
  rwa [hnorm] at hmem

theorem onConstrained_endpoint {st : RState} {e : ℕ × ℕ} {v : ℕ}
    (he : e ∈ edgesOf st.faces) (hcon : constrainedE st e = true)
    (hv : v = e.1 ∨ v = e.2) : onConstrained st v = true := by
  rw [onConstrained, List.any_eq_true]
  refine ⟨e, he, ?_⟩
  rw [hcon, Bool.true_and]
  rcases hv with rfl | rfl
  · simp
  · simp

theorem beq_renameV {v x y w : ℕ} (hvx : v ≠ x) (hvy : v ≠ y) :
    (v == renameV y x w) = (v == w) := by
  unfold renameV
  by_cases hw : w = y
  · rw [if_pos hw, hw]
    simp [hvx, hvy]
  · rw [if_neg hw]

theorem vmemB_renameF {v x y : ℕ} (hvx : v ≠ x) (hvy : v ≠ y) (f : Face) :
    vmemB v (renameF y x f) = vmemB v f := by
  unfold vmemB renameF
  rw [beq_renameV hvx hvy, beq_renameV hvx hvy, beq_renameV hvx hvy]

theorem no_face_both {f : Face} {e : ℕ × ℕ} {x y : ℕ} (htri : triOKf f)
    (he : hasEdge e f = true) (hxy : hasEdge (x, y) f = true)
    (h1x : e.1 ≠ x) (h2x : e.2 ≠ x) (h1y : e.1 ≠ y) (h2y : e.2 ≠ y)
    (hne : e.1 ≠ e.2) (hxyne : x ≠ y) : False := by
  rw [hasEdge_iff] at he hxy
  obtain ⟨htab, htbc, htac⟩ := htri
  obtain ⟨he1, he2⟩ := he
  obtain ⟨hx, hy⟩ := hxy
  omega

theorem deg_collapseFaces_other {fs : List Face} (hv : ∀ f ∈ fs, triOKf f)
    {e : ℕ × ℕ} {x y : ℕ}
    (h1x : e.1 ≠ x) (h2x : e.2 ≠ x) (h1y : e.1 ≠ y) (h2y : e.2 ≠ y)
    (hne : e.1 ≠ e.2) (hxy : x ≠ y) :
    deg (collapseFaces fs x y) e = deg fs e := by
  unfold collapseFaces deg
  rw [List.countP_map]
  have hren : List.countP (hasEdge e ∘ renameF y x) (fs.filter fun f => !hasEdge (x, y) f)
      = List.countP (hasEdge e) (fs.filter fun f => !hasEdge (x, y) f) :=
    List.countP_congr fun f _ => by
      show hasEdge e (renameF y x f) = true ↔ hasEdge e f = true
      unfold hasEdge
      rw [vmemB_renameF h1x h1y, vmemB_renameF h2x h2y]
  rw [hren]
  have hzero : List.countP (hasEdge e) (fs.filter (hasEdge (x, y))) = 0 := by
    rw [List.countP_eq_zero]
    intro f hf he
    exact no_face_both (hv f (List.mem_of_mem_filter hf)) he (List.of_mem_filter hf)
      h1x h2x h1y h2y hne hxy
  have hpar := countP_filter_partition (hasEdge e) (hasEdge (x, y)) fs
  omega

set_option maxHeartbeats 1600000 in
theorem deg_flipFaces_other {fs : List Face} {e : ℕ × ℕ} {f g : Face}
    (hv : validMesh fs) (hne : e.1 ≠ e.2)
    (hfg : fs.filter (hasEdge e) = [f, g])
    (hcd : third e f ≠ third e g)
    {e' : ℕ × ℕ} (hne' : e'.1 ≠ e'.2)
    (hde : ¬((e'.1 = e.1 ∧ e'.2 = e.2) ∨ (e'.1 = e.2 ∧ e'.2 = e.1)))
    (hdcd : ¬((e'.1 = third e f ∧ e'.2 = third e g) ∨
              (e'.1 = third e g ∧ e'.2 = third e f))) :
    deg (flipFaces fs e (third e f) (third e g)) e' = deg fs e' := by
  obtain ⟨hfm, hgm, hef, heg⟩ := mem_of_filter_pair hfg
  have hef' : hasEdge (e.1, e.2) f = true := hef
  have heg' : hasEdge (e.1, e.2) g = true := heg
  obtain ⟨hcx, hcy, hcmem, hcharf⟩ := face_shape (hv.1 f hfm) hef' hne
  obtain ⟨hdx, hdy, hdmem, hcharg⟩ := face_shape (hv.1 g hgm) heg' hne
  set c := third e f with hcdef
  set d := third e g with hddef
  obtain ⟨u, w⟩ := e'
  have hne'' : u ≠ w := hne'
  have hde' : ¬((u = e.1 ∧ w = e.2) ∨ (u = e.2 ∧ w = e.1)) := hde
  have hdcd' : ¬((u = c ∧ w = d) ∨ (u = d ∧ w = c)) := hdcd
  clear hne' hde hdcd
  have hpart : deg fs (u, w) =
      List.countP (hasEdge (u, w)) [f, g] +
      deg (fs.filter fun h => !hasEdge e h) (u, w) := by
    unfold deg
    rw [countP_filter_partition (hasEdge (u, w)) (hasEdge e) fs, hfg]
  have hflip : deg (flipFaces fs e c d) (u, w) =
      List.countP (hasEdge (u, w)) [Face.mk e.1 c d, Face.mk e.2 c d] +
      deg (fs.filter fun h => !hasEdge e h) (u, w) := by
    unfold flipFaces deg
    simp only [List.countP_cons, List.countP_nil]
    omega
  have hcount : List.countP (hasEdge (u, w)) [Face.mk e.1 c d, Face.mk e.2 c d] =
      List.countP (hasEdge (u, w)) [f, g] := by
    have H1 : hasEdge (u, w) (Face.mk e.1 c d) = true ↔
        (u = e.1 ∨ u = c ∨ u = d) ∧ (w = e.1 ∨ w = c ∨ w = d) := hasEdge_iff
    have H2 : hasEdge (u, w) (Face.mk e.2 c d) = true ↔
        (u = e.2 ∨ u = c ∨ u = d) ∧ (w = e.2 ∨ w = c ∨ w = d) := hasEdge_iff
    have H3 : hasEdge (u, w) f = true ↔
        (u = e.1 ∨ u = e.2 ∨ u = c) ∧ (w = e.1 ∨ w = e.2 ∨ w = c) := by
      rw [show hasEdge (u, w) f = (vmemB u f && vmemB w f) from rfl, Bool.and_eq_true,
        hcharf u, hcharf w]
    have H4 : hasEdge (u, w) g = true ↔
        (u = e.1 ∨ u = e.2 ∨ u = d) ∧ (w = e.1 ∨ w = e.2 ∨ w = d) := by
      rw [show hasEdge (u, w) g = (vmemB u g && vmemB w g) from rfl, Bool.and_eq_true,
        hcharg u, hcharg w]
    simp only [List.countP_cons, List.countP_nil, H1, H2, H3, H4]
    clear H1 H2 H3 H4 hcharf hcharg hcmem hdmem hef hef' heg heg' hfg hpart hflip
    clear hfm hgm hv
    by_cases p1 : (u = e.1 ∨ u = c ∨ u = d) ∧ (w = e.1 ∨ w = c ∨ w = d) <;>
    by_cases p2 : (u = e.2 ∨ u = c ∨ u = d) ∧ (w = e.2 ∨ w = c ∨ w = d) <;>
    by_cases p3 : (u = e.1 ∨ u = e.2 ∨ u = c) ∧ (w = e.1 ∨ w = e.2 ∨ w = c) <;>
    by_cases p4 : (u = e.1 ∨ u = e.2 ∨ u = d) ∧ (w = e.1 ∨ w = e.2 ∨ w = d) <;>
      simp only [p1, p2, p3, p4, if_true, if_false] <;>
      omega
  omega

theorem constrainedNbrs_ne_nil {st : RState} {e : ℕ × ℕ} {v : ℕ}
    (he : e ∈ edgesOf st.faces) (hcon : constrainedE st e = true)
    (hv : v = e.1 ∨ v = e.2) : constrainedNbrs st v ≠ [] := by
  unfold constrainedNbrs
  intro hmap
  rw [List.map_eq_nil_iff] at hmap
  have hmem : e ∈ (edgesOf st.faces).filter
      fun d => constrainedE st d && (v == d.1 || v == d.2) := by
    rw [List.mem_filter]
    refine ⟨he, ?_⟩
    rw [hcon, Bool.true_and]
    rcases hv with rfl | rfl
    · simp
    · simp
  rw [hmap] at hmem
  exact List.not_mem_nil e hmem

theorem relaxPos_constrained_fixed {st : RState} {v : ℕ}
    (h : constrainedNbrs st v ≠ []) : relaxPos false st v = st.pt v := by
  unfold relaxPos
  by_cases hvc : st.vc v = true
  · rw [if_pos hvc]
  · rw [if_neg hvc]
    rcases hl : constrainedNbrs st v with - | ⟨p, - | ⟨q, - | ⟨r, t⟩⟩⟩
    · exact absurd hl h
    · rfl
    · rfl
    · rfl

theorem ne_und_right {e : ℕ × ℕ} {u m : ℕ} (h1 : e.1 ≠ m) (h2 : e.2 ≠ m) :
    e ≠ und u m ∧ e ≠ und m u := by
  constructor
  · intro h
    rcases @und_spec u m with ⟨-, hb⟩ | ⟨ha, -⟩
    · exact h2 (by rw [h]; exact hb)
    · exact h1 (by rw [h]; exact ha)
  · intro h
    rcases @und_spec m u with ⟨ha, -⟩ | ⟨-, hb⟩
    · exact h1 (by rw [h]; exact ha)
    · exact h2 (by rw [h]; exact hb)

theorem splitEdge_ec (st : RState) (d dd : ℕ × ℕ) :
    (splitEdge st d).ec dd =
      if dd = und d.1 (freshVert st.faces) ∨ dd = und (freshVert st.faces) d.2
      then st.ec (und d.1 d.2)
      else if dd.1 = freshVert st.faces ∨ dd.2 = freshVert st.faces then false
      else st.ec dd := rfl

theorem splitEdge_pt (st : RState) (d : ℕ × ℕ) (v : ℕ) :
    (splitEdge st d).pt v =
      if v = freshVert st.faces then midpt (st.pt d.1) (st.pt d.2) else st.pt v := rfl

theorem splitEdge_touched (st : RState) (d : ℕ × ℕ) :
    (splitEdge st d).touched = freshVert st.faces :: st.touched := rfl

theorem edgeState_splitEdge {st0 st : RState} {e d : ℕ × ℕ}
    (hd0 : 1 ≤ deg st0.faces e) (hne : e.1 ≠ e.2)
    (hes : edgeState e st0 st) (hdne : d.1 ≠ d.2)
    (hdiff : ¬((e.1 = d.1 ∧ e.2 = d.2) ∨ (e.1 = d.2 ∧ e.2 = d.1))) :
    edgeState e st0 (splitEdge st d) := by
  obtain ⟨hv, hdeg, hec, hp1, hp2, ht1, ht2⟩ := hes
  have hdege : 1 ≤ deg st.faces e := by rw [hdeg]; exact hd0
  obtain ⟨f, hf, hef⟩ := exists_face_of_deg hdege
  have hef' : (vmemB e.1 f && vmemB e.2 f) = true := hef
  rcases Bool.and_eq_true_iff.1 hef' with ⟨hv1, hv2⟩
  have hm1 : e.1 ≠ freshVert st.faces := Nat.ne_of_lt (lt_freshVert hf hv1)
  have hm2 : e.2 ≠ freshVert st.faces := Nat.ne_of_lt (lt_freshVert hf hv2)
  refine ⟨validMesh_splitEdge hv hdne, ?_, ?_, ?_, ?_, ?_, ?_⟩
  · show deg (splitFaces st.faces d (freshVert st.faces)) e = deg st0.faces e
    have hpres := deg_splitFaces_other hdne hm1 hm2 hdiff hne st.faces
      (fun g hg => hv.1 g hg) (fun g hg => vmemB_fresh hg)
    exact hpres.trans hdeg
  · rw [splitEdge_ec, if_neg, if_neg, hec]
    · rintro (h | h)
      exacts [hm1 h, hm2 h]
    · rintro (h | h)
      exacts [(ne_und_right hm1 hm2).1 h, (ne_und_right hm1 hm2).2 h]
  · rw [splitEdge_pt, if_neg hm1, hp1]
  · rw [splitEdge_pt, if_neg hm2, hp2]
  · rw [splitEdge_touched]
    intro h
    rcases List.mem_cons.1 h with h | h
    exacts [hm1 h, ht1 h]
  · rw [splitEdge_touched]
    intro h
    rcases List.mem_cons.1 h with h | h
    exacts [hm2 h, ht2 h]

theorem edgeState_splitLoop {high : ℚ} {e : ℕ × ℕ} {st0 : RState}
    (hnorm : und e.1 e.2 = e) (hne : e.1 ≠ e.2) (hd0 : 1 ≤ deg st0.faces e)
    (hcon0 : constrainedE st0 e = true) :
    ∀ (fuel : ℕ) (wl : List (ℕ × ℕ)) (st : RState),
      (∀ w ∈ wl, und w.1 w.2 = w) → edgeState e st0 st →
      edgeState e st0 (splitLoop true high fuel wl st) := by
  intro fuel
  induction fuel with
  | zero => intro wl st _ hes; exact hes
  | succ n ih =>
    intro wl st hwl hes
    cases wl with
    | nil => exact hes
    | cons d wl =>
      rw [splitLoop]
      split
      · rename_i hcond
        have hsp : splittableE true st d = true := (Bool.and_eq_true_iff.1 hcond).1
        unfold splittableE at hsp
        simp only [Bool.and_eq_true, bne_iff_ne, Bool.true_and, Bool.not_eq_true',
          decide_eq_true_eq] at hsp
        obtain ⟨⟨hdd, hdne⟩, hdcon⟩ := hsp
        have hcone : constrainedE st e = true := by
          unfold constrainedE at hcon0 ⊢
          rw [hes.2.1, hes.2.2.1]
          exact hcon0
        have he12 : e.1 ≤ e.2 := by
          have h := und_fst_le e.1 e.2
          rw [hnorm] at h
          exact h
        have hd12 : d.1 ≤ d.2 := by
          have h := und_fst_le d.1 d.2
          rw [hwl d (List.mem_cons_self d wl)] at h
          exact h
        have hdiff : ¬((e.1 = d.1 ∧ e.2 = d.2) ∨ (e.1 = d.2 ∧ e.2 = d.1)) := by
          rintro (⟨h1, h2⟩ | ⟨h1, h2⟩)
          · have hed : e = d := Prod.ext_iff.2 ⟨h1, h2⟩
            rw [hed] at hcone
            rw [hcone] at hdcon
            exact Bool.noConfusion hdcon
          · omega
        have hwl' : ∀ w ∈ (if high ^ 2 * 4 < sqlen st d
            then und d.1 (freshVert st.faces) :: und (freshVert st.faces) d.2 :: wl
            else wl), und w.1 w.2 = w := by
          intro w hw
          by_cases hc : high ^ 2 * 4 < sqlen st d
          · rw [if_pos hc] at hw
            rcases List.mem_cons.1 hw with rfl | hw
            · exact und_idem _ _
            · rcases List.mem_cons.1 hw with rfl | hw
              · exact und_idem _ _
              · exact hwl w (List.mem_cons_of_mem d hw)
          · rw [if_neg hc] at hw
            exact hwl w (List.mem_cons_of_mem d hw)
        exact ih _ _ hwl' (edgeState_splitEdge hd0 hne hes hdne hdiff)
      · exact ih _ _ (fun w hw => hwl w (List.mem_cons_of_mem d hw)) hes

theorem collapseRaw_ec_other (st : RState) {x : ℕ} (y : ℕ) {dd : ℕ × ℕ}
    (h1 : dd.1 ≠ x) (h2 : dd.2 ≠ x) : (collapseRaw st x y).ec dd = st.ec dd := by
  show (if dd.1 = x ∨ dd.2 = x
      then st.ec dd || st.ec (und (renameV x y dd.1) (renameV x y dd.2))
      else st.ec dd) = st.ec dd
  rw [if_neg]
  rintro (h | h)
  exacts [h1 h, h2 h]

theorem edgeState_collapseStep {low high : ℚ} {cc : Bool} {e : ℕ × ℕ} {st0 : RState}
    (hnorm : und e.1 e.2 = e) (hne : e.1 ≠ e.2) (hd0 : 1 ≤ deg st0.faces e)
    (hcon0 : constrainedE st0 e = true) (st : RState) (d : ℕ × ℕ)
    (hes : edgeState e st0 st) :
    edgeState e st0 (collapseStep true cc low high st d) := by
  unfold collapseStep
  split
  · rename_i hcond
    rcases Bool.and_eq_true_iff.1 hcond with ⟨-, hallow⟩
    have hvm' : validMesh (collapseFaces st.faces d.1 d.2) := collapseAllowed_validMesh hallow
    unfold collapseAllowed at hallow
    simp only [Bool.and_eq_true, bne_iff_ne, Bool.true_and, Bool.not_eq_true',
      Bool.or_eq_false_iff, decide_eq_true_eq] at hallow
    obtain ⟨⟨⟨⟨⟨⟨⟨hdd, hdne⟩, -⟩, -⟩, honc1, honc2⟩, -⟩, -⟩, -⟩ := hallow
    obtain ⟨hv, hdeg, hec, hp1, hp2, ht1, ht2⟩ := hes
    have hdege : 1 ≤ deg st.faces e := by rw [hdeg]; exact hd0
    have hmem : e ∈ edgesOf st.faces := mem_edgesOf_of_deg hdege hnorm hne
    have hcone : constrainedE st e = true := by
      unfold constrainedE at hcon0 ⊢
      rw [hdeg, hec]
      exact hcon0
    have hoc1 : onConstrained st e.1 = true := onConstrained_endpoint hmem hcone (Or.inl rfl)
    have hoc2 : onConstrained st e.2 = true := onConstrained_endpoint hmem hcone (Or.inr rfl)
    have h1x : e.1 ≠ d.1 := by
      intro h
      rw [← h, hoc1] at honc1
      exact Bool.noConfusion honc1
    have h2x : e.2 ≠ d.1 := by
      intro h
      rw [← h, hoc2] at honc1
      exact Bool.noConfusion honc1
    have h1y : e.1 ≠ d.2 := by
      intro h
      rw [← h, hoc1] at honc2
      exact Bool.noConfusion honc2
    have h2y : e.2 ≠ d.2 := by
      intro h
      rw [← h, hoc2] at honc2
      exact Bool.noConfusion honc2
    refine ⟨hvm', ?_, ?_, hp1, hp2, ht1, ht2⟩
    · show deg (collapseFaces st.faces d.1 d.2) e = deg st0.faces e
      rw [deg_collapseFaces_other (fun g hg => hv.1 g hg) h1x h2x h1y h2y hne hdne, hdeg]
    · show (collapseRaw st d.1 d.2).ec e = st0.ec e
      rw [collapseRaw_ec_other st d.2 h1x h2x, hec]
  · exact hes

theorem edgeState_foldl {e : ℕ × ℕ} {st0 : RState} {f : RState → (ℕ × ℕ) → RState}
    (hstep : ∀ st d, edgeState e st0 st → edgeState e st0 (f st d)) :
    ∀ (l : List (ℕ × ℕ)) (st : RState), edgeState e st0 st →
      edgeState e st0 (l.foldl f st) := by
  intro l
  induction l with
  | nil => intro st hes; exact hes
  | cons d l ih => intro st hes; exact ih _ (hstep st d hes)

theorem edgeState_foldl_norm {e : ℕ × ℕ} {st0 : RState} {f : RState → (ℕ × ℕ) → RState}
    (hstep : ∀ st d, und d.1 d.2 = d → edgeState e st0 st → edgeState e st0 (f st d)) :
    ∀ (l : List (ℕ × ℕ)), (∀ d ∈ l, und d.1 d.2 = d) →
      ∀ st, edgeState e st0 st → edgeState e st0 (l.foldl f st) := by
  intro l
  induction l with
  | nil => intro _ st hes; exact hes
  | cons d l ih =>
    intro hl st hes
    exact ih (fun w hw => hl w (List.mem_cons_of_mem d hw)) _
      (hstep st d (hl d (List.mem_cons_self d l)) hes)

theorem edgeState_equalizeStep {e : ℕ × ℕ} {st0 : RState}
    (hnorm : und e.1 e.2 = e) (hne : e.1 ≠ e.2) (hd0 : 1 ≤ deg st0.faces e)
    (hcon0 : constrainedE st0 e = true) (st : RState) (d : ℕ × ℕ)
    (hdnorm : und d.1 d.2 = d) (hes : edgeState e st0 st) :
    edgeState e st0 (equalizeStep st d) := by
  obtain ⟨hv, hdeg, hec, hp1, hp2, ht1, ht2⟩ := hes
  have hdege : 1 ≤ deg st.faces e := by rw [hdeg]; exact hd0
  have hcone : constrainedE st e = true := by
    unfold constrainedE at hcon0 ⊢
    rw [hdeg, hec]
    exact hcon0
  unfold equalizeStep
  split
  · rename_i c dd heq
    obtain ⟨f, g, hfg, hc, hd⟩ := flipInfo_some heq
    split
    · rename_i hcond
      rcases Bool.and_eq_true_iff.1 hcond with ⟨hallow, -⟩
      unfold flipAllowed at hallow
      simp only [Bool.and_eq_true, bne_iff_ne, beq_iff_eq, Bool.not_eq_true'] at hallow
      obtain ⟨⟨⟨hdne, hdcon⟩, hcdne⟩, hnocd⟩ := hallow
      subst hc
      subst hd
      have he12 : e.1 ≤ e.2 := by
        have h := und_fst_le e.1 e.2
        rw [hnorm] at h
        exact h
      have hd12 : d.1 ≤ d.2 := by
        have h := und_fst_le d.1 d.2
        rw [hdnorm] at h
        exact h
      have hde : ¬((e.1 = d.1 ∧ e.2 = d.2) ∨ (e.1 = d.2 ∧ e.2 = d.1)) := by
        rintro (⟨h1, h2⟩ | ⟨h1, h2⟩)
        · have hed : e = d := Prod.ext_iff.2 ⟨h1, h2⟩
          rw [hed] at hcone
          rw [hcone] at hdcon
          exact Bool.noConfusion hdcon
        · omega
      have hdcd : ¬((e.1 = third d f ∧ e.2 = third d g) ∨
          (e.1 = third d g ∧ e.2 = third d f)) := by
        rintro (⟨h1, h2⟩ | ⟨h1, h2⟩)
        · have hz : deg st.faces (und (third d f) (third d g)) = deg st.faces e := by
            rw [← h1, ← h2, hnorm]
          omega
        · have hz : deg st.faces (und (third d f) (third d g)) = deg st.faces e := by
            rw [und_comm, ← h1, ← h2, hnorm]
          omega
      refine ⟨?_, ?_, hec, hp1, hp2, ht1, ht2⟩
      · exact validMesh_flipFaces hv hdne hfg hcdne hnocd
      · show deg (flipFaces st.faces d (third d f) (third d g)) e = deg st0.faces e
        rw [deg_flipFaces_other hv hdne hfg hcdne hne hde hdcd, hdeg]
    · exact ⟨hv, hdeg, hec, hp1, hp2, ht1, ht2⟩
  · exact ⟨hv, hdeg, hec, hp1, hp2, ht1, ht2⟩

theorem edgeState_equalizePass {e : ℕ × ℕ} {st0 : RState}
    (hnorm : und e.1 e.2 = e) (hne : e.1 ≠ e.2) (hd0 : 1 ≤ deg st0.faces e)
    (hcon0 : constrainedE st0 e = true) (st : RState) (hes : edgeState e st0 st) :
    edgeState e st0 (equalizePass st) := by
  unfold equalizePass
  exact edgeState_foldl_norm
    (fun st' d hdn hes' => edgeState_equalizeStep hnorm hne hd0 hcon0 st' d hdn hes')
    _ (fun d hd => mem_edgesOf_norm hd) st hes

theorem edgeState_relaxOnce {e : ℕ × ℕ} {st0 : RState}
    (hnorm : und e.1 e.2 = e) (hne : e.1 ≠ e.2) (hd0 : 1 ≤ deg st0.faces e)
    (hcon0 : constrainedE st0 e = true) (st : RState) (hes : edgeState e st0 st) :
    edgeState e st0 (relaxOnce false st) := by
  obtain ⟨hv, hdeg, hec, hp1, hp2, ht1, ht2⟩ := hes
  have hdege : 1 ≤ deg st.faces e := by rw [hdeg]; exact hd0
  have hmem : e ∈ edgesOf st.faces := mem_edgesOf_of_deg hdege hnorm hne
  have hcone : constrainedE st e = true := by
    unfold constrainedE at hcon0 ⊢
    rw [hdeg, hec]
    exact hcon0
  have hfix : ∀ v, v = e.1 ∨ v = e.2 →
      (if v ∈ vertsOf st.faces then relaxPos false st v else st.pt v) = st.pt v := by
    intro v hv'
    by_cases hin : v ∈ vertsOf st.faces
    · rw [if_pos hin]
      exact relaxPos_constrained_fixed (constrainedNbrs_ne_nil hmem hcone hv')
    · rw [if_neg hin]
  refine ⟨hv, hdeg, hec, ?_, ?_, ?_, ?_⟩
  · show (if e.1 ∈ vertsOf st.faces then relaxPos false st e.1 else st.pt e.1) = st0.pt e.1
    rw [hfix e.1 (Or.inl rfl), hp1]
  · show (if e.2 ∈ vertsOf st.faces then relaxPos false st e.2 else st.pt e.2) = st0.pt e.2
    rw [hfix e.2 (Or.inr rfl), hp2]
  · intro h
    rcases List.mem_append.1 h with h | h
    · have hmv := List.of_mem_filter h
      rw [decide_eq_true_eq] at hmv
      exact hmv (hfix e.1 (Or.inl rfl))
    · exact ht1 h
  · intro h
    rcases List.mem_append.1 h with h | h
    · have hmv := List.of_mem_filter h
      rw [decide_eq_true_eq] at hmv
      exact hmv (hfix e.2 (Or.inr rfl))
    · exact ht2 h

theorem edgeState_relaxIter {e : ℕ × ℕ} {st0 : RState}
    (hnorm : und e.1 e.2 = e) (hne : e.1 ≠ e.2) (hd0 : 1 ≤ deg st0.faces e)
    (hcon0 : constrainedE st0 e = true) :
    ∀ (steps : ℕ) (st : RState), edgeState e st0 st →
      edgeState e st0 ((relaxOnce false)^[steps] st) := by
  intro steps
  induction steps with
  | zero => intro st hes; exact hes
  | succ n ih =>
    intro st hes
    rw [Function.iterate_succ_apply]
    exact ih _ (edgeState_relaxOnce hnorm hne hd0 hcon0 st hes)

theorem edgeState_project {e : ℕ × ℕ} {st0 : RState} {S : List Point}
    {fo : Option (Point → Point)} (st : RState) (hes : edgeState e st0 st) :
    edgeState e st0 (project_to_surface_impl S fo st) := by
  obtain ⟨hv, hdeg, hec, hp1, hp2, ht1, ht2⟩ := hes
  refine ⟨hv, hdeg, hec, ?_, ?_, ht1, ht2⟩
  · show (if e.1 ∈ st.touched then (fo.getD fun q => closestPoint q S) (st.pt e.1)
      else st.pt e.1) = st0.pt e.1
    rw [if_neg ht1, hp1]
  · show (if e.2 ∈ st.touched then (fo.getD fun q => closestPoint q S) (st.pt e.2)
      else st.pt e.2) = st0.pt e.2
    rw [if_neg ht2, hp2]

theorem edgeState_iteration {fuel : ℕ} {S : List Point} {target low high : ℚ}
    {np : NamedParams (Point → Point)} (hrelax : np.relax_constraints = false)
    {e : ℕ × ℕ} {st0 : RState}
    (hnorm : und e.1 e.2 = e) (hne : e.1 ≠ e.2) (hd0 : 1 ≤ deg st0.faces e)
    (hcon0 : constrainedE st0 e = true) (st : RState) (hes : edgeState e st0 st) :
    edgeState e st0 (iterationState (remesherT true fuel S) target low high np st) := by
  show edgeState e st0
    (if np.do_project then
      project_to_surface_impl S np.projection_functor
        (tangential_relaxation_impl np.relax_constraints np.number_of_relaxation_steps
          (equalize_valences_impl
            (if 0 < target then
              collapse_short_edges_impl true np.collapse_constraints low high
                (split_long_edges_impl true fuel high st)
             else st)))
     else
      tangential_relaxation_impl np.relax_constraints np.number_of_relaxation_steps
        (equalize_valences_impl
          (if 0 < target then
            collapse_short_edges_impl true np.collapse_constraints low high
              (split_long_edges_impl true fuel high st)
           else st)))
  have h1 : edgeState e st0
      (if 0 < target then
        collapse_short_edges_impl true np.collapse_constraints low high
          (split_long_edges_impl true fuel high st)
       else st) := by
    by_cases ht : 0 < target
    · rw [if_pos ht]
      have hsplit : edgeState e st0 (split_long_edges_impl true fuel high st) := by
        unfold split_long_edges_impl
        exact edgeState_splitLoop hnorm hne hd0 hcon0 fuel _ st
          (fun w hw => mem_edgesOf_norm hw) hes
      unfold collapse_short_edges_impl
      exact edgeState_foldl
        (fun st' d hes' => edgeState_collapseStep hnorm hne hd0 hcon0 st' d hes')
        _ _ hsplit
    · rw [if_neg ht]
      exact hes
  have h2 : edgeState e st0 (equalize_valences_impl
      (if 0 < target then
        collapse_short_edges_impl true np.collapse_constraints low high
          (split_long_edges_impl true fuel high st)
       else st)) := by
    unfold equalize_valences_impl
    exact edgeState_equalizePass hnorm hne hd0 hcon0 _
      (edgeState_equalizePass hnorm hne hd0 hcon0 _ h1)
  have h3 : edgeState e st0
      (tangential_relaxation_impl np.relax_constraints np.number_of_relaxation_steps
        (equalize_valences_impl
          (if 0 < target then
            collapse_short_edges_impl true np.collapse_constraints low high
              (split_long_edges_impl true fuel high st)
           else st))) := by
    rw [hrelax]
    exact edgeState_relaxIter hnorm hne hd0 hcon0 np.number_of_relaxation_steps _ h2
  by_cases hdp : np.do_project = true
  · rw [if_pos hdp]
    exact edgeState_project _ h3
  · rw [if_neg hdp]
    exact h3

end PMPRemesh
